import Mathlib

/-! Salsa20 reference implementation (`salsa20/salsa/salsa20_ref.go`)

A shallow embedding of the architecture-independent Salsa20/20 code and the
properties of its keystream, counter handling and failure behaviour.

Modelling conventions

* A `uint32` is a natural number below `2^32`; every wrapping operation of the
  source carries its `% 2^32` explicitly.  A `byte` is a natural number below
  `256`; a byte buffer is a `List Nat`.
* The fixed-size arrays `*[16]byte` and `*[32]byte` are lists; where a property
  depends on it, the length and the byte range are hypotheses
  (`nonce.length = 16`, `IsBytes nonce`).
* `in` and `out` are modelled as separate values (no partial overlap).
* A call returns an `Outcome`: the memory it leaves behind (output buffer and
  nonce/counter buffer) together with the way it ended.
-/

namespace Salsa

/-! ## Words and bytes -/

/-- `bits.RotateLeft32(x, k)`: `s := k & 31; x<<s | x>>(32-s)` on `uint32`. -/
def rotateLeft32 (x k : Nat) : Nat :=
  let s := k % 32
  ((x <<< s) % 2 ^ 32) ||| (x >>> (32 - s))

/-- Wrapping `uint32` addition. -/
def add32 (a b : Nat) : Nat := (a + b) % 2 ^ 32

/-- `binary.LittleEndian.Uint32(b)`:
`uint32(b[0]) | uint32(b[1])<<8 | uint32(b[2])<<16 | uint32(b[3])<<24`. -/
def uint32LE (b : List Nat) : Nat :=
  b.getD 0 0 ||| (b.getD 1 0 <<< 8) ||| (b.getD 2 0 <<< 16) ||| (b.getD 3 0 <<< 24)

/-- `binary.LittleEndian.PutUint32(b, v)`: the four bytes
`byte(v), byte(v>>8), byte(v>>16), byte(v>>24)` written to `b[0..4]`. -/
def putUint32 (v : Nat) : List Nat :=
  [v % 256, (v >>> 8) % 256, (v >>> 16) % 256, (v >>> 24) % 256]

/-- The slice expression `b[lo:hi]`. -/
def slice (b : List Nat) (lo hi : Nat) : List Nat := (b.take hi).drop lo

/-- The buffer `b` after its sub-slice `b[lo:hi]` has received the contents `s`. -/
def putSlice (b : List Nat) (lo hi : Nat) (s : List Nat) : List Nat :=
  b.take lo ++ s ++ b.drop hi

/-! ## The quarter round -/

def rounds : Nat := 20

def quarterRound (a b c d : Nat) : Nat × Nat × Nat × Nat :=
  let b := b ^^^ rotateLeft32 (add32 a d) 7
  let c := c ^^^ rotateLeft32 (add32 b a) 9
  let d := d ^^^ rotateLeft32 (add32 c b) 13
  let a := a ^^^ rotateLeft32 (add32 d c) 18
  (a, b, c, d)

def j0 : Nat := 0x61707865
def j1 : Nat := 0x3320646e
def j2 : Nat := 0x79622d32
def j3 : Nat := 0x6b206574

/-- The sixteen working variables `x0 .. x15`. -/
structure Words16 where
  x0 : Nat
  x1 : Nat
  x2 : Nat
  x3 : Nat
  x4 : Nat
  x5 : Nat
  x6 : Nat
  x7 : Nat
  x8 : Nat
  x9 : Nat
  x10 : Nat
  x11 : Nat
  x12 : Nat
  x13 : Nat
  x14 : Nat
  x15 : Nat
deriving DecidableEq, Repr

/-- The four statements under `// Odd round`. -/
def oddRound (x : Words16) : Words16 :=
  let (x0, x4, x8, x12) := quarterRound x.x0 x.x4 x.x8 x.x12
  let (x5, x9, x13, x1) := quarterRound x.x5 x.x9 x.x13 x.x1
  let (x10, x14, x2, x6) := quarterRound x.x10 x.x14 x.x2 x.x6
  let (x15, x3, x7, x11) := quarterRound x.x15 x.x3 x.x7 x.x11
  ⟨x0, x1, x2, x3, x4, x5, x6, x7, x8, x9, x10, x11, x12, x13, x14, x15⟩

/-- The four statements under `// Even round` (also the unrolled second round). -/
def evenRound (x : Words16) : Words16 :=
  let (x0, x1, x2, x3) := quarterRound x.x0 x.x1 x.x2 x.x3
  let (x5, x6, x7, x4) := quarterRound x.x5 x.x6 x.x7 x.x4
  let (x10, x11, x8, x9) := quarterRound x.x10 x.x11 x.x8 x.x9
  let (x15, x12, x13, x14) := quarterRound x.x15 x.x12 x.x13 x.x14
  ⟨x0, x1, x2, x3, x4, x5, x6, x7, x8, x9, x10, x11, x12, x13, x14, x15⟩

/-- The loop `for i := 0; i < rounds-2; i += 2 { odd round; even round }`,
started at `i`; `fuel` bounds the number of iterations. -/
def remainingRounds : Nat → Nat → Words16 → Words16
  | 0, _, x => x
  | fuel + 1, i, x =>
    if i < rounds - 2 then remainingRounds fuel (i + 2) (evenRound (oddRound x)) else x

/-! ## One keystream block -/

/-- `keyStreamBlock(dst, nonce, key)`: the 64 bytes written to `dst`. -/
def keyStreamBlock (nonce key : List Nat) : List Nat :=
  let k0 := uint32LE (slice key 0 4)
  let k1 := uint32LE (slice key 4 8)
  let k2 := uint32LE (slice key 8 12)
  let k3 := uint32LE (slice key 12 16)
  let k4 := uint32LE (slice key 16 20)
  let k5 := uint32LE (slice key 20 24)
  let k6 := uint32LE (slice key 24 28)
  let k7 := uint32LE (slice key 28 32)
  let n0 := uint32LE (slice nonce 0 4)
  let n1 := uint32LE (slice nonce 4 8)
  let ctrLo := uint32LE (slice nonce 8 12)
  let ctrHi := uint32LE (slice nonce 12 16)
  let c0 := j0
  let c1 := k0
  let c2 := k1
  let c3 := k2
  let c4 := k3
  let c5 := j1
  let c6 := n0
  let c7 := n1
  let c10 := j2
  let c11 := k4
  let c12 := k5
  let c13 := k6
  let c14 := k7
  let c15 := j3
  let (x10, x14, x2, x6) := quarterRound c10 c14 c2 c6
  let (x15, x3, x7, x11) := quarterRound c15 c3 c7 c11
  let (x5, x9, x13, x1) := quarterRound c5 ctrHi c13 c1
  let (x0, x4, x8, x12) := quarterRound c0 c4 ctrLo c12
  let x := evenRound ⟨x0, x1, x2, x3, x4, x5, x6, x7, x8, x9, x10, x11, x12, x13, x14, x15⟩
  let x := remainingRounds rounds 0 x
  putUint32 (add32 x.x0 c0) ++ putUint32 (add32 x.x1 c1) ++
  putUint32 (add32 x.x2 c2) ++ putUint32 (add32 x.x3 c3) ++
  putUint32 (add32 x.x4 c4) ++ putUint32 (add32 x.x5 c5) ++
  putUint32 (add32 x.x6 c6) ++ putUint32 (add32 x.x7 c7) ++
  putUint32 (add32 x.x8 ctrLo) ++ putUint32 (add32 x.x9 ctrHi) ++
  putUint32 (add32 x.x10 c10) ++ putUint32 (add32 x.x11 c11) ++
  putUint32 (add32 x.x12 c12) ++ putUint32 (add32 x.x13 c13) ++
  putUint32 (add32 x.x14 c14) ++ putUint32 (add32 x.x15 c15)

/-! ## Streaming -/

/-- The ways a call can fail fatally. -/
inductive Panic where
  /-- `panic("salsa20: internal error: out buffer smaller than input")` -/
  | outTooSmall
  /-- `panic("salsa20: internal error: counter overflow")` -/
  | counterOverflow
  /-- A run-time bounds check of a slice expression. -/
  | outOfRange
deriving DecidableEq, Repr

/-- The caller-visible memory: the output buffer and the nonce/counter buffer. -/
structure Mem where
  out : List Nat
  counter : List Nat
deriving DecidableEq, Repr

/-- How a call ends, and the memory it leaves behind. -/
inductive Outcome where
  | done (m : Mem)
  | panicked (p : Panic) (m : Mem)
  | outOfFuel
deriving DecidableEq, Repr

/-- Modelled from the spec: the helper `xor(dst, src, u)` is called by
`xorKeyStreamBlocksGeneric` but not defined in the file; it writes `src` XOR the
four little-endian bytes of `u` into `dst`:
`dst[i] = src[i] ^ byte(u >> 8i)` for `i = 0..3`. -/
def xor (dst src : List Nat) (u : Nat) : List Nat :=
  [src.getD 0 0 ^^^ (u % 256), src.getD 1 0 ^^^ ((u >>> 8) % 256),
   src.getD 2 0 ^^^ ((u >>> 16) % 256), src.getD 3 0 ^^^ ((u >>> 24) % 256)] ++ dst.drop 4

/-- The locals of `xorKeyStreamBlocksGeneric` that are computed before the block
loop and never assigned in it. -/
structure LoopConsts where
  c0 : Nat
  c1 : Nat
  c2 : Nat
  c3 : Nat
  c4 : Nat
  c5 : Nat
  c6 : Nat
  c7 : Nat
  c10 : Nat
  c11 : Nat
  c12 : Nat
  c13 : Nat
  c14 : Nat
  c15 : Nat
  fr10 : Nat
  fr14 : Nat
  fr2 : Nat
  fr6 : Nat
  fr15 : Nat
  fr3 : Nat
  fr7 : Nat
  fr11 : Nat
deriving DecidableEq, Repr

/-- The statement `xor(dst[lo:hi], src[lo:hi], u)`: the contents of `dst` afterwards. -/
def xorAt (dst src : List Nat) (lo hi u : Nat) : List Nat :=
  putSlice dst lo hi (xor (slice dst lo hi) (slice src lo hi) u)

/-- The sixteen `xor(dst[4j:4j+4], src[4j:4j+4], xj + cj)` calls of one block:
the contents of `dst` afterwards. -/
def xorBlock (k : LoopConsts) (ctrLo ctrHi : Nat) (x : Words16) (dst src : List Nat) :
    List Nat :=
  let dst := xorAt dst src 0 4 (add32 x.x0 k.c0)
  let dst := xorAt dst src 4 8 (add32 x.x1 k.c1)
  let dst := xorAt dst src 8 12 (add32 x.x2 k.c2)
  let dst := xorAt dst src 12 16 (add32 x.x3 k.c3)
  let dst := xorAt dst src 16 20 (add32 x.x4 k.c4)
  let dst := xorAt dst src 20 24 (add32 x.x5 k.c5)
  let dst := xorAt dst src 24 28 (add32 x.x6 k.c6)
  let dst := xorAt dst src 28 32 (add32 x.x7 k.c7)
  let dst := xorAt dst src 32 36 (add32 x.x8 ctrLo)
  let dst := xorAt dst src 36 40 (add32 x.x9 ctrHi)
  let dst := xorAt dst src 40 44 (add32 x.x10 k.c10)
  let dst := xorAt dst src 44 48 (add32 x.x11 k.c11)
  let dst := xorAt dst src 48 52 (add32 x.x12 k.c12)
  let dst := xorAt dst src 52 56 (add32 x.x13 k.c13)
  let dst := xorAt dst src 56 60 (add32 x.x14 k.c14)
  xorAt dst src 60 64 (add32 x.x15 k.c15)

/-- The block loop of `xorKeyStreamBlocksGeneric`,
`for len(src) >= 64 && len(dst) >= 64 { ... }`, followed by the write-back of the
counter.  The loop-carried variables are `ctrLo`, `ctrHi`, `fr5`, `fr9`, `fr13`,
`fr1` and the two slices `src`, `dst`; `written` is the part of the output buffer
that lies before the current start of `dst`.  Every slice expression of the
body has constant bounds within `0..64`, which the loop guard covers. -/
def blocksLoop (k : LoopConsts) (nonce : List Nat) :
    Nat → Nat → Nat → Nat → Nat → Nat → Nat → List Nat → List Nat → List Nat → Outcome
  | 0, _, _, _, _, _, _, _, _, _ => .outOfFuel
  | fuel + 1, ctrLo, ctrHi, fr5, fr9, fr13, fr1, src, dst, written =>
    if 64 ≤ src.length ∧ 64 ≤ dst.length then
      let (fr0, fr4, fr8, fr12) := quarterRound k.c0 k.c4 ctrLo k.c12
      let x := evenRound ⟨fr0, fr1, k.fr2, k.fr3, fr4, fr5, k.fr6, k.fr7,
                          fr8, fr9, k.fr10, k.fr11, fr12, fr13, k.fr14, k.fr15⟩
      let x := remainingRounds rounds 0 x
      let dst := xorBlock k ctrLo ctrHi x dst src
      let ctrLo := add32 ctrLo 1
      if ctrLo = 0 then
        let ctrHi := add32 ctrHi 1
        let (fr5, fr9, fr13, fr1) := quarterRound k.c5 ctrHi k.c13 k.c1
        if ctrHi = 0 then
          .panicked .counterOverflow ⟨written ++ dst, nonce⟩
        else
          blocksLoop k nonce fuel ctrLo ctrHi fr5 fr9 fr13 fr1
            (src.drop 64) (dst.drop 64) (written ++ dst.take 64)
      else
        blocksLoop k nonce fuel ctrLo ctrHi fr5 fr9 fr13 fr1
          (src.drop 64) (dst.drop 64) (written ++ dst.take 64)
    else
      let nonce := putSlice nonce 8 12 (putUint32 ctrLo)
      let nonce := putSlice nonce 12 16 (putUint32 ctrHi)
      .done ⟨written ++ dst, nonce⟩

/-- `xorKeyStreamBlocksGeneric(dst, src, nonce, key)`.  The block loop runs at
most `len(src)/64` times, so the fuel `len(src)/64 + 1` is never used up. -/
def xorKeyStreamBlocksGeneric (dst src nonce key : List Nat) : Outcome :=
  let k0 := uint32LE (slice key 0 4)
  let k1 := uint32LE (slice key 4 8)
  let k2 := uint32LE (slice key 8 12)
  let k3 := uint32LE (slice key 12 16)
  let k4 := uint32LE (slice key 16 20)
  let k5 := uint32LE (slice key 20 24)
  let k6 := uint32LE (slice key 24 28)
  let k7 := uint32LE (slice key 28 32)
  let n0 := uint32LE (slice nonce 0 4)
  let n1 := uint32LE (slice nonce 4 8)
  let ctrLo := uint32LE (slice nonce 8 12)
  let ctrHi := uint32LE (slice nonce 12 16)
  let c0 := j0
  let c1 := k0
  let c2 := k1
  let c3 := k2
  let c4 := k3
  let c5 := j1
  let c6 := n0
  let c7 := n1
  let c10 := j2
  let c11 := k4
  let c12 := k5
  let c13 := k6
  let c14 := k7
  let c15 := j3
  let (fr10, fr14, fr2, fr6) := quarterRound c10 c14 c2 c6
  let (fr15, fr3, fr7, fr11) := quarterRound c15 c3 c7 c11
  let (fr5, fr9, fr13, fr1) := quarterRound c5 ctrHi c13 c1
  blocksLoop ⟨c0, c1, c2, c3, c4, c5, c6, c7, c10, c11, c12, c13, c14, c15,
              fr10, fr14, fr2, fr6, fr15, fr3, fr7, fr11⟩ nonce
    (src.length / 64 + 1) ctrLo ctrHi fr5 fr9 fr13 fr1 src dst []

/-- The loop `for i := 0; i < rem; i++ { out[i] = in[i] ^ keyStream[i] }`:
the contents of the slice `out` afterwards. -/
def xorTail (out inp keyStream : List Nat) (rem : Nat) : List Nat :=
  (List.range rem).foldl
    (fun o i => o.set i (inp.getD i 0 ^^^ keyStream.getD i 0)) out

/-- `genericXORKeyStream(out, in, counter, key)`. -/
def genericXORKeyStream (out inp counter key : List Nat) : Outcome :=
  if out.length < inp.length then
    .panicked .outTooSmall ⟨out, counter⟩
  else
    let rem := inp.length % 64
    let full := inp.length - rem
    let afterBlocks :=
      if full > 0 then xorKeyStreamBlocksGeneric out inp counter key
      else .done ⟨out, counter⟩
    match afterBlocks with
    | .done ⟨out, counter⟩ =>
      if rem > 0 ∧ rem < 64 then
        let keyStream := keyStreamBlock counter key
        if full + rem ≤ inp.length ∧ full + rem ≤ out.length then
          let inT := slice inp full (full + rem)
          let outT := slice out full (full + rem)
          .done ⟨putSlice out full (full + rem) (xorTail outT inT keyStream rem), counter⟩
        else
          .panicked .outOfRange ⟨out, counter⟩
      else
        .done ⟨out, counter⟩
    | other => other

/-! ## Specification-side definitions -/

/-- A buffer holds bytes: every element is below `256`. -/
def IsBytes (b : List Nat) : Prop := ∀ x ∈ b, x < 256

instance (b : List Nat) : Decidable (IsBytes b) := by
  unfold IsBytes; infer_instance

/-- Rotation of a 32-bit word to the left by `k` bit positions, as arithmetic:
the low `32 - k` bits move up by `k`, the high `k` bits come back in at the bottom. -/
def rotl32 (x k : Nat) : Nat := (x * 2 ^ k) % 2 ^ 32 + x / 2 ^ (32 - k)

/-- The quarter round as the specification words it. -/
def quarterRoundSpec (a b c d : Nat) : Nat × Nat × Nat × Nat :=
  let b' := b ^^^ rotl32 ((a + d) % 2 ^ 32) 7
  let c' := c ^^^ rotl32 ((b' + a) % 2 ^ 32) 9
  let d' := d ^^^ rotl32 ((c' + b') % 2 ^ 32) 13
  let a' := a ^^^ rotl32 ((d' + c') % 2 ^ 32) 18
  (a', b', c', d')

/-- The little-endian value of the first four bytes of `b`. -/
def le32 (b : List Nat) : Nat :=
  b.getD 0 0 + 256 * b.getD 1 0 + 65536 * b.getD 2 0 + 16777216 * b.getD 3 0

/-- The little-endian encoding of a 32-bit word in four bytes. -/
def leBytes32 (v : Nat) : List Nat :=
  [v % 256, v / 256 % 256, v / 65536 % 256, v / 16777216 % 256]

/-- The reference initial state: constants at 0, 5, 10, 15, key words at 1..4 and
11..14, nonce words at 6..7, counter words at 8..9. -/
def refState (nonce key : List Nat) : List Nat :=
  [0x61707865, le32 (slice key 0 4), le32 (slice key 4 8), le32 (slice key 8 12),
   le32 (slice key 12 16), 0x3320646e, le32 (slice nonce 0 4), le32 (slice nonce 4 8),
   le32 (slice nonce 8 12), le32 (slice nonce 12 16), 0x79622d32, le32 (slice key 16 20),
   le32 (slice key 20 24), le32 (slice key 24 28), le32 (slice key 28 32), 0x6b206574]

/-- The quarter round applied to the word group `(i, j, k, l)` of a state. -/
def quarterRoundOn (s : List Nat) (i j k l : Nat) : List Nat :=
  let q := quarterRound (s.getD i 0) (s.getD j 0) (s.getD k 0) (s.getD l 0)
  (((s.set i q.1).set j q.2.1).set k q.2.2.1).set l q.2.2.2

/-- The reference double round. -/
def refDoubleRound (s : List Nat) : List Nat :=
  let s := quarterRoundOn s 0 4 8 12
  let s := quarterRoundOn s 5 9 13 1
  let s := quarterRoundOn s 10 14 2 6
  let s := quarterRoundOn s 15 3 7 11
  let s := quarterRoundOn s 0 1 2 3
  let s := quarterRoundOn s 5 6 7 4
  let s := quarterRoundOn s 10 11 8 9
  quarterRoundOn s 15 12 13 14

/-- The reference permutation: ten double rounds. -/
def refPermute (s : List Nat) : List Nat := refDoubleRound^[10] s

/-- The sixteen working variables as a state. -/
def Words16.toList (x : Words16) : List Nat :=
  [x.x0, x.x1, x.x2, x.x3, x.x4, x.x5, x.x6, x.x7,
   x.x8, x.x9, x.x10, x.x11, x.x12, x.x13, x.x14, x.x15]

/-! ## Proof devices: the shared shape of the two block computations -/

/-- The input words of a block: `c0 .. c7`, the counter words, `c10 .. c15`. -/
def LoopConsts.init (k : LoopConsts) (ctrLo ctrHi : Nat) : Words16 :=
  ⟨k.c0, k.c1, k.c2, k.c3, k.c4, k.c5, k.c6, k.c7, ctrLo, ctrHi,
   k.c10, k.c11, k.c12, k.c13, k.c14, k.c15⟩

/-- The loop constants `xorKeyStreamBlocksGeneric` computes from key and nonce. -/
def loopConsts (nonce key : List Nat) : LoopConsts :=
  let c1 := uint32LE (slice key 0 4)
  let c2 := uint32LE (slice key 4 8)
  let c3 := uint32LE (slice key 8 12)
  let c4 := uint32LE (slice key 12 16)
  let c11 := uint32LE (slice key 16 20)
  let c12 := uint32LE (slice key 20 24)
  let c13 := uint32LE (slice key 24 28)
  let c14 := uint32LE (slice key 28 32)
  let c6 := uint32LE (slice nonce 0 4)
  let c7 := uint32LE (slice nonce 4 8)
  let q1 := quarterRound j2 c14 c2 c6
  let q2 := quarterRound j3 c3 c7 c11
  ⟨j0, c1, c2, c3, c4, j1, c6, c7, j2, c11, c12, c13, c14, j3,
   q1.1, q1.2.1, q1.2.2.1, q1.2.2.2, q2.1, q2.2.1, q2.2.2.1, q2.2.2.2⟩

/-- The input words `keyStreamBlock` decodes from key and nonce. -/
def initWords (nonce key : List Nat) : Words16 :=
  (loopConsts nonce key).init (uint32LE (slice nonce 8 12)) (uint32LE (slice nonce 12 16))

/-- The twenty rounds in the shape both functions run them. -/
def permute (x : Words16) : Words16 := remainingRounds rounds 0 (evenRound (oddRound x))

/-- The sixteen words `xj + cj`, each as four little-endian bytes. -/
def outputBytes (x c : Words16) : List Nat :=
  putUint32 (add32 x.x0 c.x0) ++ putUint32 (add32 x.x1 c.x1) ++
  putUint32 (add32 x.x2 c.x2) ++ putUint32 (add32 x.x3 c.x3) ++
  putUint32 (add32 x.x4 c.x4) ++ putUint32 (add32 x.x5 c.x5) ++
  putUint32 (add32 x.x6 c.x6) ++ putUint32 (add32 x.x7 c.x7) ++
  putUint32 (add32 x.x8 c.x8) ++ putUint32 (add32 x.x9 c.x9) ++
  putUint32 (add32 x.x10 c.x10) ++ putUint32 (add32 x.x11 c.x11) ++
  putUint32 (add32 x.x12 c.x12) ++ putUint32 (add32 x.x13 c.x13) ++
  putUint32 (add32 x.x14 c.x14) ++ putUint32 (add32 x.x15 c.x15)

/-- The first `n` bytes of `src`, each XORed with the keystream byte at its index. -/
def xorBytes (src ks : List Nat) (n : Nat) : List Nat :=
  (List.range n).map (fun i => src.getD i 0 ^^^ ks.getD i 0)

/-- The little-endian value of a byte string. -/
def leValue : List Nat → Nat
  | [] => 0
  | b :: bs => b + 256 * leValue bs

/-- The little-endian encoding of `v` in `n` bytes. -/
def leBytes : Nat → Nat → List Nat
  | 0, _ => []
  | n + 1, v => v % 256 :: leBytes n (v / 256)

/-- The 64-bit block counter held in `nonce[8..16]`. -/
def counterValue (nonce : List Nat) : Nat := leValue (slice nonce 8 16)

/-- The nonce/counter block whose bytes `8..16` are replaced by the encoding of `c`. -/
def withCounter (nonce : List Nat) (c : Nat) : List Nat := putSlice nonce 8 16 (leBytes 8 c)

/-- The keystream block `KS(key, nonce, c)` for block counter `c`. -/
def KS (key nonce : List Nat) (c : Nat) : List Nat := keyStreamBlock (withCounter nonce c) key

/-- The stream the specification asks for: byte `i` of the input XORed with byte
`i mod 64` of the keystream block for counter `c + i / 64`. -/
def expected (key nonce : List Nat) (c : Nat) (inp : List Nat) : List Nat :=
  (List.range inp.length).map
    (fun i => inp.getD i 0 ^^^ (KS key nonce (c + i / 64)).getD (i % 64) 0)

/-- Two successive `genericXORKeyStream` calls that share one nonce/counter
buffer: the first encrypts `m[0..p]` into `out1`, the second encrypts `m[p..]`
into `out2` starting from the counter buffer the first call left behind.  The
result holds the bytes the two calls produced, concatenated, and the final
counter buffer. -/
def twoCalls (out1 out2 m : List Nat) (p : Nat) (counter key : List Nat) : Outcome :=
  match genericXORKeyStream out1 (m.take p) counter key with
  | .done r1 =>
    match genericXORKeyStream out2 (m.drop p) r1.counter key with
    | .done r2 => .done ⟨r1.out.take p ++ r2.out.take (m.length - p), r2.counter⟩
    | other => other
  | other => other

/-- The naive bulk loop the specification allows in place of the memoised one:
for each of `n` full chunks in order, call `keyStreamBlock` with the current
nonce/counter buffer, XOR the 64-byte block into the chunk, and increment the
64-bit counter in the buffer by one.  The result is the contents of `dst` and of
the nonce/counter buffer afterwards. -/
def naiveBlocks : Nat → List Nat → List Nat → List Nat → List Nat → List Nat × List Nat
  | 0, dst, _, nonce, _ => (dst, nonce)
  | n + 1, dst, src, nonce, key =>
    let block := keyStreamBlock nonce key
    let chunk := xorBytes src block 64
    let nonce := withCounter nonce (counterValue nonce + 1)
    let rest := naiveBlocks n (dst.drop 64) (src.drop 64) nonce key
    (chunk ++ rest.1, rest.2)

/-- The inverse of the quarter round: the four xor steps undone in reverse order. -/
def quarterRoundInv (a b c d : Nat) : Nat × Nat × Nat × Nat :=
  let a := a ^^^ rotateLeft32 (add32 d c) 18
  let d := d ^^^ rotateLeft32 (add32 c b) 13
  let c := c ^^^ rotateLeft32 (add32 b a) 9
  let b := b ^^^ rotateLeft32 (add32 a d) 7
  (a, b, c, d)

/-- The odd round undone: the inverse quarter round on the same four word groups. -/
def oddRoundInv (x : Words16) : Words16 :=
  let (x0, x4, x8, x12) := quarterRoundInv x.x0 x.x4 x.x8 x.x12
  let (x5, x9, x13, x1) := quarterRoundInv x.x5 x.x9 x.x13 x.x1
  let (x10, x14, x2, x6) := quarterRoundInv x.x10 x.x14 x.x2 x.x6
  let (x15, x3, x7, x11) := quarterRoundInv x.x15 x.x3 x.x7 x.x11
  ⟨x0, x1, x2, x3, x4, x5, x6, x7, x8, x9, x10, x11, x12, x13, x14, x15⟩

/-- The even round undone: the inverse quarter round on the same four word groups. -/
def evenRoundInv (x : Words16) : Words16 :=
  let (x0, x1, x2, x3) := quarterRoundInv x.x0 x.x1 x.x2 x.x3
  let (x5, x6, x7, x4) := quarterRoundInv x.x5 x.x6 x.x7 x.x4
  let (x10, x11, x8, x9) := quarterRoundInv x.x10 x.x11 x.x8 x.x9
  let (x15, x12, x13, x14) := quarterRoundInv x.x15 x.x12 x.x13 x.x14
  ⟨x0, x1, x2, x3, x4, x5, x6, x7, x8, x9, x10, x11, x12, x13, x14, x15⟩

/-- The ten double rounds undone: ten times the even round undone, then the odd. -/
def permuteInv (x : Words16) : Words16 := (fun y => oddRoundInv (evenRoundInv y))^[10] x

/-- All sixteen words of a state are 32-bit words. -/
def Words16.IsWords (x : Words16) : Prop :=
  x.x0 < 2 ^ 32 ∧ x.x1 < 2 ^ 32 ∧ x.x2 < 2 ^ 32 ∧ x.x3 < 2 ^ 32 ∧ x.x4 < 2 ^ 32 ∧
  x.x5 < 2 ^ 32 ∧ x.x6 < 2 ^ 32 ∧ x.x7 < 2 ^ 32 ∧ x.x8 < 2 ^ 32 ∧ x.x9 < 2 ^ 32 ∧
  x.x10 < 2 ^ 32 ∧ x.x11 < 2 ^ 32 ∧ x.x12 < 2 ^ 32 ∧ x.x13 < 2 ^ 32 ∧ x.x14 < 2 ^ 32 ∧
  x.x15 < 2 ^ 32

instance (x : Words16) : Decidable x.IsWords := by
  unfold Words16.IsWords; infer_instance

/-! ## Lemmas -/

theorem putUint32_length (v : Nat) : (putUint32 v).length = 4 := rfl

theorem or_shiftLeft_eq_add (a b i : Nat) (h : b < 2 ^ i) : b ||| (a <<< i) = b + a * 2 ^ i := by
  rw [Nat.lor_comm, Nat.shiftLeft_eq, Nat.mul_comm a, ← Nat.mul_add_lt_is_or h]
  omega

theorem uint32LE_four (b0 b1 b2 b3 : Nat) (h0 : b0 < 256) (h1 : b1 < 256) (h2 : b2 < 256) :
    uint32LE [b0, b1, b2, b3] = b0 + 256 * b1 + 65536 * b2 + 16777216 * b3 := by
  simp only [uint32LE, List.getD_cons_zero, List.getD_cons_succ]
  rw [or_shiftLeft_eq_add b1 b0 8 (by omega)]
  rw [or_shiftLeft_eq_add b2 _ 16 (by omega)]
  rw [or_shiftLeft_eq_add b3 _ 24 (by omega)]
  omega

theorem uint32LE_putUint32 (v : Nat) : uint32LE (putUint32 v) = v % 2 ^ 32 := by
  unfold putUint32
  rw [uint32LE_four _ _ _ _ (by omega) (by omega) (by omega)]
  simp only [Nat.shiftRight_eq_div_pow]
  omega

theorem rotateLeft32_eq_rotl32 (x k : Nat) (hx : x < 2 ^ 32) (hk : k < 32) :
    rotateLeft32 x k = rotl32 x k := by
  unfold rotateLeft32 rotl32
  simp only [Nat.mod_eq_of_lt hk, Nat.shiftLeft_eq, Nat.shiftRight_eq_div_pow]
  have h32 : 2 ^ 32 = 2 ^ k * 2 ^ (32 - k) := by
    rw [← pow_add]; congr 1; omega
  have h1 : x * 2 ^ k % 2 ^ 32 = 2 ^ k * (x % 2 ^ (32 - k)) := by
    rw [h32, Nat.mul_comm x, Nat.mul_mod_mul_left]
  have h2 : x / 2 ^ (32 - k) < 2 ^ k := by
    rw [Nat.div_lt_iff_lt_mul (by positivity)]
    rw [← h32]; exact hx
  rw [h1, Nat.mul_add_lt_is_or h2]

theorem add32_lt (a b : Nat) : add32 a b < 2 ^ 32 := Nat.mod_lt _ (by norm_num)

theorem rotateLeft32_lt (x k : Nat) (hx : x < 2 ^ 32) : rotateLeft32 x k < 2 ^ 32 := by
  unfold rotateLeft32
  apply Nat.or_lt_two_pow (Nat.mod_lt _ (by norm_num))
  simp only [Nat.shiftRight_eq_div_pow]
  exact lt_of_le_of_lt (Nat.div_le_self _ _) hx

theorem quarterRound_eq_spec (a b c d : Nat) : quarterRound a b c d = quarterRoundSpec a b c d := by
  simp only [quarterRound, quarterRoundSpec, add32]
  rw [rotateLeft32_eq_rotl32 _ 7 (Nat.mod_lt _ (by norm_num)) (by norm_num),
      rotateLeft32_eq_rotl32 _ 9 (Nat.mod_lt _ (by norm_num)) (by norm_num),
      rotateLeft32_eq_rotl32 _ 13 (Nat.mod_lt _ (by norm_num)) (by norm_num),
      rotateLeft32_eq_rotl32 _ 18 (Nat.mod_lt _ (by norm_num)) (by norm_num)]

theorem quarterRound_lt (a b c d : Nat) (ha : a < 2 ^ 32) (hb : b < 2 ^ 32) (hc : c < 2 ^ 32)
    (hd : d < 2 ^ 32) :
    (quarterRound a b c d).1 < 2 ^ 32 ∧ (quarterRound a b c d).2.1 < 2 ^ 32 ∧
    (quarterRound a b c d).2.2.1 < 2 ^ 32 ∧ (quarterRound a b c d).2.2.2 < 2 ^ 32 := by
  simp only [quarterRound]
  exact ⟨Nat.xor_lt_two_pow ha (rotateLeft32_lt _ 18 (add32_lt _ _)),
    Nat.xor_lt_two_pow hb (rotateLeft32_lt _ 7 (add32_lt _ _)),
    Nat.xor_lt_two_pow hc (rotateLeft32_lt _ 9 (add32_lt _ _)),
    Nat.xor_lt_two_pow hd (rotateLeft32_lt _ 13 (add32_lt _ _))⟩

theorem keyStreamBlock_eq_output (nonce key : List Nat) :
    keyStreamBlock nonce key = outputBytes (permute (initWords nonce key)) (initWords nonce key) := by
  rfl

theorem permute_eq_iterate (x : Words16) :
    permute x = (fun y => evenRound (oddRound y))^[10] x := by
  rfl

theorem refDoubleRound_toList (x : Words16) :
    refDoubleRound x.toList = (evenRound (oddRound x)).toList := by
  rcases x with ⟨x0, x1, x2, x3, x4, x5, x6, x7, x8, x9, x10, x11, x12, x13, x14, x15⟩
  simp only [refDoubleRound, quarterRoundOn, Words16.toList, oddRound, evenRound,
    List.getD_cons_zero, List.getD_cons_succ, List.set_cons_zero, List.set_cons_succ]

theorem getD_lt_of_isBytes (b : List Nat) (h : IsBytes b) (i : Nat) : b.getD i 0 < 256 := by
  rw [List.getD_eq_getElem?_getD]
  rcases hi : b[i]? with _ | x
  · simp
  · simp only [Option.getD_some]
    exact h x (List.getElem?_mem hi)

theorem isBytes_slice (b : List Nat) (h : IsBytes b) (lo hi : Nat) : IsBytes (slice b lo hi) :=
  fun x hx => h x (List.mem_of_mem_take (List.mem_of_mem_drop hx))

theorem uint32LE_eq_le32 (b : List Nat) (h : IsBytes b) : uint32LE b = le32 b := by
  have h0 := getD_lt_of_isBytes b h 0
  have h1 := getD_lt_of_isBytes b h 1
  have h2 := getD_lt_of_isBytes b h 2
  unfold uint32LE le32
  rw [or_shiftLeft_eq_add _ _ 8 (by omega), or_shiftLeft_eq_add _ _ 16 (by omega),
    or_shiftLeft_eq_add _ _ 24 (by omega)]
  omega

theorem putUint32_eq_leBytes32 (v : Nat) : putUint32 v = leBytes32 v := by
  simp [putUint32, leBytes32, Nat.shiftRight_eq_div_pow]

theorem initWords_toList (nonce key : List Nat) (hk : IsBytes key) (hn : IsBytes nonce) :
    (initWords nonce key).toList = refState nonce key := by
  simp only [initWords, loopConsts, LoopConsts.init, Words16.toList, refState, j0, j1, j2, j3,
    uint32LE_eq_le32 _ (isBytes_slice key hk _ _), uint32LE_eq_le32 _ (isBytes_slice nonce hn _ _)]

theorem refDoubleRound_iterate (n : Nat) (x : Words16) :
    refDoubleRound^[n] x.toList = ((fun y => evenRound (oddRound y))^[n] x).toList := by
  induction n generalizing x with
  | zero => rfl
  | succ n ih =>
    rw [Function.iterate_succ_apply, Function.iterate_succ_apply, refDoubleRound_toList, ih]

theorem slice_outputBytes (x c : Words16) (j : Nat) (hj : j < 16) :
    slice (outputBytes x c) (4 * j) (4 * j + 4) =
      leBytes32 ((x.toList.getD j 0 + c.toList.getD j 0) % 2 ^ 32) := by
  rcases x with ⟨x0, x1, x2, x3, x4, x5, x6, x7, x8, x9, x10, x11, x12, x13, x14, x15⟩
  rcases c with ⟨c0, c1, c2, c3, c4, c5, c6, c7, c8, c9, c10, c11, c12, c13, c14, c15⟩
  simp only [← putUint32_eq_leBytes32, outputBytes, putUint32, Words16.toList, add32, slice,
    List.cons_append, List.nil_append]
  interval_cases j <;> rfl

theorem outputBytes_length (x c : Words16) : (outputBytes x c).length = 64 := by
  simp [outputBytes, putUint32]

theorem getD_slice (b : List Nat) (lo hi j : Nat) (h : lo + j < hi) :
    (slice b lo hi).getD j 0 = b.getD (lo + j) 0 := by
  simp only [slice, List.getD_eq_getElem?_getD, List.getElem?_drop, List.getElem?_take, h,
    if_true]

theorem putSlice_xor_step (acc rest src : List Nat) (n hi u : Nat) (hn : acc.length = n)
    (hhi : hi = n + 4) :
    xorAt (acc ++ rest) src n hi u =
      (acc ++ [src.getD n 0 ^^^ (u % 256), src.getD (n + 1) 0 ^^^ ((u >>> 8) % 256),
        src.getD (n + 2) 0 ^^^ ((u >>> 16) % 256), src.getD (n + 3) 0 ^^^ ((u >>> 24) % 256)])
      ++ rest.drop 4 := by
  subst hhi
  subst hn
  have h1 : (slice (acc ++ rest) acc.length (acc.length + 4)).drop 4 = [] := by
    apply List.drop_eq_nil_of_le
    simp [slice]; omega
  have g0 := getD_slice src acc.length (acc.length + 4) 0 (by omega)
  have g1 := getD_slice src acc.length (acc.length + 4) 1 (by omega)
  have g2 := getD_slice src acc.length (acc.length + 4) 2 (by omega)
  have g3 := getD_slice src acc.length (acc.length + 4) 3 (by omega)
  simp only [Nat.add_zero] at g0
  simp only [xorAt, putSlice, xor, h1, g0, g1, g2, g3, List.take_left', List.append_nil]
  rw [List.drop_append_eq_append_drop]
  simp [List.drop_eq_nil_of_le]

theorem putSlice_xor_first (dst src : List Nat) (u : Nat) :
    xorAt dst src 0 4 u =
      [src.getD 0 0 ^^^ (u % 256), src.getD 1 0 ^^^ ((u >>> 8) % 256),
        src.getD 2 0 ^^^ ((u >>> 16) % 256), src.getD 3 0 ^^^ ((u >>> 24) % 256)]
      ++ dst.drop 4 := by
  have h := putSlice_xor_step [] dst src 0 4 u rfl rfl
  simpa using h

theorem range_64 : List.range 64 = [0, 1, 2, 3, 4, 5, 6, 7, 8, 9, 10, 11, 12, 13, 14, 15, 16, 17,
    18, 19, 20, 21, 22, 23, 24, 25, 26, 27, 28, 29, 30, 31, 32, 33, 34, 35, 36, 37, 38, 39, 40,
    41, 42, 43, 44, 45, 46, 47, 48, 49, 50, 51, 52, 53, 54, 55, 56, 57, 58, 59, 60, 61, 62, 63] := by
  decide

theorem xorBlock_eq (k : LoopConsts) (ctrLo ctrHi : Nat) (x : Words16) (dst src : List Nat) :
    xorBlock k ctrLo ctrHi x dst src =
      xorBytes src (outputBytes x (k.init ctrLo ctrHi)) 64 ++ dst.drop 64 := by
  simp only [xorBlock]
  rw [putSlice_xor_first]
  iterate 15 (rw [putSlice_xor_step _ _ _ _ _ _ (by simp) (by norm_num)])
  simp only [xorBytes, range_64, outputBytes, putUint32, LoopConsts.init, List.map_cons,
    List.map_nil, List.cons_append, List.nil_append, List.getD_cons_zero, List.getD_cons_succ,
    List.drop_drop, List.append_assoc]

theorem exists_of_length_16 (l : List Nat) (h : l.length = 16) :
    ∃ a0 a1 a2 a3 a4 a5 a6 a7 a8 a9 a10 a11 a12 a13 a14 a15 : Nat,
      l = [a0, a1, a2, a3, a4, a5, a6, a7, a8, a9, a10, a11, a12, a13, a14, a15] := by
  rcases l with _ | ⟨a0, _ | ⟨a1, _ | ⟨a2, _ | ⟨a3, _ | ⟨a4, _ | ⟨a5, _ | ⟨a6, _ | ⟨a7, _ | ⟨a8,
    _ | ⟨a9, _ | ⟨a10, _ | ⟨a11, _ | ⟨a12, _ | ⟨a13, _ | ⟨a14, _ | ⟨a15, _ | ⟨a16, l⟩⟩⟩⟩⟩⟩⟩⟩⟩⟩⟩⟩⟩⟩⟩⟩⟩
    <;> simp at h
  exact ⟨a0, a1, a2, a3, a4, a5, a6, a7, a8, a9, a10, a11, a12, a13, a14, a15, rfl⟩

theorem loopConsts_withCounter (nonce key : List Nat) (hn : nonce.length = 16) (c : Nat) :
    loopConsts (withCounter nonce c) key = loopConsts nonce key := by
  obtain ⟨a0, a1, a2, a3, a4, a5, a6, a7, a8, a9, a10, a11, a12, a13, a14, a15, rfl⟩ :=
    exists_of_length_16 nonce hn
  rfl

theorem leBytes_8 (c : Nat) : leBytes 8 c = leBytes32 (c % 2 ^ 32) ++ leBytes32 (c / 2 ^ 32 % 2 ^ 32) := by
  simp only [leBytes, leBytes32, Nat.div_div_eq_div_mul, List.cons_append, List.nil_append]
  refine congrArg₂ _ (by omega) (congrArg₂ _ (by omega) (congrArg₂ _ (by omega)
    (congrArg₂ _ (by omega) (congrArg₂ _ (by omega) (congrArg₂ _ (by omega)
    (congrArg₂ _ (by omega) (congrArg₂ _ (by omega) rfl)))))))

theorem uint32LE_leBytes32 (v : Nat) : uint32LE (leBytes32 v) = v % 2 ^ 32 := by
  rw [← putUint32_eq_leBytes32, uint32LE_putUint32]

theorem ctrLo_withCounter (nonce : List Nat) (hn : nonce.length = 16) (c : Nat) :
    uint32LE (slice (withCounter nonce c) 8 12) = c % 2 ^ 32 := by
  obtain ⟨a0, a1, a2, a3, a4, a5, a6, a7, a8, a9, a10, a11, a12, a13, a14, a15, rfl⟩ :=
    exists_of_length_16 nonce hn
  have h : slice (withCounter [a0, a1, a2, a3, a4, a5, a6, a7, a8, a9, a10, a11, a12, a13, a14, a15] c)
      8 12 = leBytes32 (c % 2 ^ 32) := by
    rw [withCounter, leBytes_8]; rfl
  rw [h, uint32LE_leBytes32]; omega

theorem ctrHi_withCounter (nonce : List Nat) (hn : nonce.length = 16) (c : Nat) :
    uint32LE (slice (withCounter nonce c) 12 16) = c / 2 ^ 32 % 2 ^ 32 := by
  obtain ⟨a0, a1, a2, a3, a4, a5, a6, a7, a8, a9, a10, a11, a12, a13, a14, a15, rfl⟩ :=
    exists_of_length_16 nonce hn
  have h : slice (withCounter [a0, a1, a2, a3, a4, a5, a6, a7, a8, a9, a10, a11, a12, a13, a14, a15] c)
      12 16 = leBytes32 (c / 2 ^ 32 % 2 ^ 32) := by
    rw [withCounter, leBytes_8]; rfl
  rw [h, uint32LE_leBytes32]; omega

theorem initWords_withCounter (nonce key : List Nat) (hn : nonce.length = 16) (c : Nat) :
    initWords (withCounter nonce c) key =
      (loopConsts nonce key).init (c % 2 ^ 32) (c / 2 ^ 32 % 2 ^ 32) := by
  rw [initWords, loopConsts_withCounter nonce key hn, ctrLo_withCounter nonce hn,
    ctrHi_withCounter nonce hn]

theorem KS_eq (key nonce : List Nat) (hn : nonce.length = 16) (c : Nat) :
    KS key nonce c =
      outputBytes (permute ((loopConsts nonce key).init (c % 2 ^ 32) (c / 2 ^ 32 % 2 ^ 32)))
        ((loopConsts nonce key).init (c % 2 ^ 32) (c / 2 ^ 32 % 2 ^ 32)) := by
  rw [KS, keyStreamBlock_eq_output, initWords_withCounter nonce key hn]

theorem counterValue_eq (nonce : List Nat) (hn : nonce.length = 16) (hb : IsBytes nonce) :
    counterValue nonce =
      uint32LE (slice nonce 8 12) + 2 ^ 32 * uint32LE (slice nonce 12 16) := by
  rw [uint32LE_eq_le32 _ (isBytes_slice nonce hb _ _), uint32LE_eq_le32 _ (isBytes_slice nonce hb _ _)]
  obtain ⟨a0, a1, a2, a3, a4, a5, a6, a7, a8, a9, a10, a11, a12, a13, a14, a15, rfl⟩ :=
    exists_of_length_16 nonce hn
  simp only [counterValue, slice, le32, leValue, List.take, List.drop, List.getD_cons_zero,
    List.getD_cons_succ]
  omega

theorem uint32LE_lt (b : List Nat) (h : IsBytes b) : uint32LE b < 2 ^ 32 := by
  have h0 := getD_lt_of_isBytes b h 0
  have h1 := getD_lt_of_isBytes b h 1
  have h2 := getD_lt_of_isBytes b h 2
  have h3 := getD_lt_of_isBytes b h 3
  rw [uint32LE_eq_le32 b h, le32]
  omega

theorem counterValue_lt (nonce : List Nat) (hn : nonce.length = 16) (hb : IsBytes nonce) :
    counterValue nonce < 2 ^ 64 := by
  have h1 := uint32LE_lt _ (isBytes_slice nonce hb 8 12)
  have h2 := uint32LE_lt _ (isBytes_slice nonce hb 12 16)
  rw [counterValue_eq nonce hn hb]
  omega

theorem writeBack_eq (nonce : List Nat) (hn : nonce.length = 16) (lo hi : Nat)
    (hlo : lo < 2 ^ 32) (hhi : hi < 2 ^ 32) :
    putSlice (putSlice nonce 8 12 (putUint32 lo)) 12 16 (putUint32 hi) =
      withCounter nonce (lo + 2 ^ 32 * hi) := by
  obtain ⟨a0, a1, a2, a3, a4, a5, a6, a7, a8, a9, a10, a11, a12, a13, a14, a15, rfl⟩ :=
    exists_of_length_16 nonce hn
  have e1 : (lo + 2 ^ 32 * hi) % 2 ^ 32 = lo := by omega
  have e2 : (lo + 2 ^ 32 * hi) / 2 ^ 32 % 2 ^ 32 = hi := by omega
  rw [withCounter, leBytes_8, e1, e2, putUint32_eq_leBytes32, putUint32_eq_leBytes32]
  rfl

theorem withCounter_counterValue (nonce : List Nat) (hn : nonce.length = 16)
    (hb : IsBytes nonce) : withCounter nonce (counterValue nonce) = nonce := by
  obtain ⟨a0, a1, a2, a3, a4, a5, a6, a7, a8, a9, a10, a11, a12, a13, a14, a15, rfl⟩ :=
    exists_of_length_16 nonce hn
  have h8 := hb a8 (by simp)
  have h9 := hb a9 (by simp)
  have h10 := hb a10 (by simp)
  have h11 := hb a11 (by simp)
  have h12 := hb a12 (by simp)
  have h13 := hb a13 (by simp)
  have h14 := hb a14 (by simp)
  have h15 := hb a15 (by simp)
  simp only [withCounter, counterValue, putSlice, slice, leValue, leBytes, List.take, List.drop,
    List.cons_append, List.nil_append, Nat.div_div_eq_div_mul]
  refine congrArg₂ _ rfl (congrArg₂ _ rfl (congrArg₂ _ rfl (congrArg₂ _ rfl (congrArg₂ _ rfl
    (congrArg₂ _ rfl (congrArg₂ _ rfl (congrArg₂ _ rfl ?_)))))))
  refine congrArg₂ _ (by omega) (congrArg₂ _ (by omega) (congrArg₂ _ (by omega)
    (congrArg₂ _ (by omega) (congrArg₂ _ (by omega) (congrArg₂ _ (by omega)
    (congrArg₂ _ (by omega) (congrArg₂ _ (by omega) rfl)))))))

theorem expected_length (key nonce : List Nat) (c : Nat) (inp : List Nat) :
    (expected key nonce c inp).length = inp.length := by
  simp [expected]

theorem xorBytes_length (src ks : List Nat) (n : Nat) : (xorBytes src ks n).length = n := by
  simp [xorBytes]

theorem getD_expected (key nonce : List Nat) (c : Nat) (inp : List Nat) (i : Nat)
    (hi : i < inp.length) :
    (expected key nonce c inp).getD i 0 =
      inp.getD i 0 ^^^ (KS key nonce (c + i / 64)).getD (i % 64) 0 := by
  have h : i < (expected key nonce c inp).length := by rw [expected_length]; exact hi
  rw [List.getD_eq_getElem _ _ h]
  simp [expected]

theorem expected_nil (key nonce : List Nat) (c : Nat) : expected key nonce c [] = [] := rfl

theorem expected_append (key nonce : List Nat) (c : Nat) (a b : List Nat)
    (ha : a.length % 64 = 0) :
    expected key nonce c (a ++ b) =
      expected key nonce c a ++ expected key nonce (c + a.length / 64) b := by
  simp only [expected, List.length_append, List.range_add, List.map_append, List.map_map]
  congr 1
  · apply List.map_congr_left
    intro i hi
    rw [List.mem_range] at hi
    rw [List.getD_append _ _ _ _ hi]
  · apply List.map_congr_left
    intro i _
    have e1 : (a.length + i) / 64 = a.length / 64 + i / 64 := by omega
    have e2 : (a.length + i) % 64 = i % 64 := by omega
    simp only [Function.comp_apply, e1, e2, Nat.add_assoc]
    rw [List.getD_append_right _ _ _ _ (by omega)]
    simp

theorem expected_block (key nonce : List Nat) (c : Nat) (src : List Nat)
    (h : 64 ≤ src.length) :
    expected key nonce c (src.take 64) = xorBytes src (KS key nonce c) 64 := by
  have hl : (src.take 64).length = 64 := by simp; omega
  simp only [expected, xorBytes, hl]
  apply List.map_congr_left
  intro i hi
  rw [List.mem_range] at hi
  have e1 : i / 64 = 0 := by omega
  have e2 : i % 64 = i := by omega
  rw [e1, e2, Nat.add_zero]
  congr 1
  simp only [List.getD_eq_getElem?_getD, List.getElem?_take, hi, if_true]

theorem expected_tail (key nonce : List Nat) (c : Nat) (inp : List Nat)
    (h : inp.length < 64) :
    expected key nonce c inp = xorBytes inp (KS key nonce c) inp.length := by
  simp only [expected, xorBytes]
  apply List.map_congr_left
  intro i hi
  rw [List.mem_range] at hi
  have e1 : i / 64 = 0 := by omega
  have e2 : i % 64 = i := by omega
  rw [e1, e2, Nat.add_zero]

theorem expected_take_succ (key nonce : List Nat) (c : Nat) (src : List Nat) (m : Nat)
    (h : 64 ≤ src.length) :
    expected key nonce c (src.take (64 * (m + 1))) =
      expected key nonce c (src.take 64) ++
        expected key nonce (c + 1) ((src.drop 64).take (64 * m)) := by
  have e : src.take (64 * (m + 1)) = src.take 64 ++ (src.drop 64).take (64 * m) := by
    rw [show 64 * (m + 1) = 64 + 64 * m by ring, List.take_add]
  have hl : (src.take 64).length = 64 := by simp; omega
  rw [e, expected_append _ _ _ _ _ (by rw [hl]), hl]

theorem xorTail_eq (out inp ks : List Nat) (n : Nat) (h : n ≤ out.length) :
    xorTail out inp ks n = xorBytes inp ks n ++ out.drop n := by
  unfold xorTail xorBytes
  induction n with
  | zero => simp
  | succ n ih =>
    rw [List.range_succ, List.foldl_append, ih (by omega), List.map_append]
    simp only [List.foldl_cons, List.foldl_nil, List.map_cons, List.map_nil]
    have hl : ((List.range n).map (fun i => inp.getD i 0 ^^^ ks.getD i 0)).length = n := by simp
    rw [List.set_append_right _ _ (by rw [hl]), hl, Nat.sub_self]
    have hd : out.drop n = out[n] :: out.drop (n + 1) := by
      rw [List.drop_eq_getElem_cons]
    rw [hd, List.set_cons_zero, List.append_assoc]
    rfl

theorem oddRound_init (nonce key : List Nat) (lo hi fr0 fr4 fr8 fr12 fr5 fr9 fr13 fr1 : Nat)
    (hq : quarterRound (loopConsts nonce key).c0 (loopConsts nonce key).c4 lo
      (loopConsts nonce key).c12 = (fr0, fr4, fr8, fr12))
    (hfr : quarterRound (loopConsts nonce key).c5 hi (loopConsts nonce key).c13
      (loopConsts nonce key).c1 = (fr5, fr9, fr13, fr1)) :
    oddRound ((loopConsts nonce key).init lo hi) =
      ⟨fr0, fr1, (loopConsts nonce key).fr2, (loopConsts nonce key).fr3, fr4, fr5,
       (loopConsts nonce key).fr6, (loopConsts nonce key).fr7, fr8, fr9,
       (loopConsts nonce key).fr10, (loopConsts nonce key).fr11, fr12, fr13,
       (loopConsts nonce key).fr14, (loopConsts nonce key).fr15⟩ := by
  simp only [oddRound, LoopConsts.init, hq, hfr]
  rfl

theorem blocksLoop_spec (nonce key : List Nat) (hn : nonce.length = 16) (fuel : Nat) :
    ∀ (ctrLo ctrHi fr5 fr9 fr13 fr1 : Nat) (src dst written : List Nat),
      ctrLo < 2 ^ 32 → ctrHi < 2 ^ 32 →
      quarterRound (loopConsts nonce key).c5 ctrHi (loopConsts nonce key).c13
        (loopConsts nonce key).c1 = (fr5, fr9, fr13, fr1) →
      min src.length dst.length / 64 < fuel →
      blocksLoop (loopConsts nonce key) nonce fuel ctrLo ctrHi fr5 fr9 fr13 fr1 src dst written =
        if ctrLo + 2 ^ 32 * ctrHi + min src.length dst.length / 64 < 2 ^ 64 then
          .done ⟨written ++
              expected key nonce (ctrLo + 2 ^ 32 * ctrHi)
                (src.take (64 * (min src.length dst.length / 64))) ++
              dst.drop (64 * (min src.length dst.length / 64)),
            withCounter nonce (ctrLo + 2 ^ 32 * ctrHi + min src.length dst.length / 64)⟩
        else
          .panicked .counterOverflow ⟨written ++
              expected key nonce (ctrLo + 2 ^ 32 * ctrHi)
                (src.take (64 * (2 ^ 64 - (ctrLo + 2 ^ 32 * ctrHi)))) ++
              dst.drop (64 * (2 ^ 64 - (ctrLo + 2 ^ 32 * ctrHi))), nonce⟩ := by
  induction fuel with
  | zero => intro _ _ _ _ _ _ _ _ _ _ _ _ h; omega
  | succ fuel ih =>
    intro ctrLo ctrHi fr5 fr9 fr13 fr1 src dst written hlo hhi hfr hfuel
    by_cases hg : 64 ≤ src.length ∧ 64 ≤ dst.length
    · rcases hq : quarterRound (loopConsts nonce key).c0 (loopConsts nonce key).c4 ctrLo
        (loopConsts nonce key).c12 with ⟨fr0, fr4, fr8, fr12⟩
      have hodd := oddRound_init nonce key ctrLo ctrHi fr0 fr4 fr8 fr12 fr5 fr9 fr13 fr1 hq hfr
      have e1 : (ctrLo + 2 ^ 32 * ctrHi) % 2 ^ 32 = ctrLo := by omega
      have e2 : (ctrLo + 2 ^ 32 * ctrHi) / 2 ^ 32 % 2 ^ 32 = ctrHi := by omega
      have hks := KS_eq key nonce hn (ctrLo + 2 ^ 32 * ctrHi)
      rw [e1, e2] at hks
      simp only [blocksLoop, hg, and_self, if_true, hq, ← hodd]
      rw [xorBlock_eq]
      have hperm : remainingRounds rounds 0
          (evenRound (oddRound ((loopConsts nonce key).init ctrLo ctrHi))) =
          permute ((loopConsts nonce key).init ctrLo ctrHi) := rfl
      rw [hperm, ← hks, ← expected_block key nonce _ src hg.1]
      have hB : (expected key nonce (ctrLo + 2 ^ 32 * ctrHi) (src.take 64)).length = 64 := by
        rw [expected_length, List.length_take]; omega
      rw [List.drop_left' hB, List.take_left' hB]
      obtain ⟨m, hm⟩ : ∃ m, min src.length dst.length / 64 = m + 1 :=
        ⟨min src.length dst.length / 64 - 1, by omega⟩
      have hm' : min (src.drop 64).length (dst.drop 64).length / 64 = m := by
        simp only [List.length_drop]; omega
      have hsl : 64 ≤ src.length := hg.1
      -- the rest of the loop, started at counter `c + 1`
      have cont : ∀ lo' hi' f5 f9 f13 f1 : Nat, lo' < 2 ^ 32 → hi' < 2 ^ 32 →
          quarterRound (loopConsts nonce key).c5 hi' (loopConsts nonce key).c13
            (loopConsts nonce key).c1 = (f5, f9, f13, f1) →
          lo' + 2 ^ 32 * hi' = ctrLo + 2 ^ 32 * ctrHi + 1 →
          blocksLoop (loopConsts nonce key) nonce fuel lo' hi' f5 f9 f13 f1 (src.drop 64)
            (dst.drop 64)
            (written ++ expected key nonce (ctrLo + 2 ^ 32 * ctrHi) (src.take 64)) =
          if ctrLo + 2 ^ 32 * ctrHi + min src.length dst.length / 64 < 2 ^ 64 then
            .done ⟨written ++
                expected key nonce (ctrLo + 2 ^ 32 * ctrHi)
                  (src.take (64 * (min src.length dst.length / 64))) ++
                dst.drop (64 * (min src.length dst.length / 64)),
              withCounter nonce (ctrLo + 2 ^ 32 * ctrHi + min src.length dst.length / 64)⟩
          else
            .panicked .counterOverflow ⟨written ++
                expected key nonce (ctrLo + 2 ^ 32 * ctrHi)
                  (src.take (64 * (2 ^ 64 - (ctrLo + 2 ^ 32 * ctrHi)))) ++
                dst.drop (64 * (2 ^ 64 - (ctrLo + 2 ^ 32 * ctrHi))), nonce⟩ := by
        intro lo' hi' f5 f9 f13 f1 hlo' hhi' hf' hc'
        rw [ih lo' hi' f5 f9 f13 f1 _ _ _ hlo' hhi' hf' (by rw [hm']; omega), hm', hm, hc']
        by_cases hov : ctrLo + 2 ^ 32 * ctrHi + (m + 1) < 2 ^ 64
        · rw [if_pos hov, if_pos (by omega)]
          rw [expected_take_succ key nonce _ src m hsl, List.drop_drop]
          simp only [List.append_assoc, Nat.add_assoc]
          rw [show 64 + 64 * m = 64 * (m + 1) by ring, show 1 + m = m + 1 by ring]
        · rw [if_neg hov, if_neg (by omega)]
          obtain ⟨r, hr⟩ : ∃ r, 2 ^ 64 - (ctrLo + 2 ^ 32 * ctrHi) = r + 1 :=
            ⟨2 ^ 64 - (ctrLo + 2 ^ 32 * ctrHi) - 1, by omega⟩
          have hr' : 2 ^ 64 - (ctrLo + 2 ^ 32 * ctrHi + 1) = r := by omega
          rw [hr, hr', expected_take_succ key nonce _ src r hsl, List.drop_drop]
          simp only [List.append_assoc]
          rw [show 64 + 64 * r = 64 * (r + 1) by ring]
      by_cases h0 : add32 ctrLo 1 = 0
      · have hlo1 : ctrLo + 1 = 2 ^ 32 := by unfold add32 at h0; omega
        rw [if_pos h0]
        by_cases h1 : add32 ctrHi 1 = 0
        · have hhi1 : ctrHi + 1 = 2 ^ 32 := by unfold add32 at h1; omega
          rw [if_pos h1, if_neg (by omega)]
          have hone : 2 ^ 64 - (ctrLo + 2 ^ 32 * ctrHi) = 1 := by omega
          rw [hone]
          simp only [Nat.mul_one, List.append_assoc]
        · rw [if_neg h1, h0]
          have hhi1 : add32 ctrHi 1 = ctrHi + 1 := by unfold add32 at h1 ⊢; omega
          exact cont 0 (add32 ctrHi 1) _ _ _ _ (by norm_num) (add32_lt _ _) rfl
            (by rw [hhi1]; omega)
      · rw [if_neg h0]
        have hlo1 : add32 ctrLo 1 = ctrLo + 1 := by unfold add32 at h0 ⊢; omega
        exact cont (add32 ctrLo 1) ctrHi _ _ _ _ (add32_lt _ _) hhi hfr (by rw [hlo1]; omega)
    · have hn0 : min src.length dst.length / 64 = 0 := by omega
      simp only [blocksLoop, hg, if_false]
      rw [writeBack_eq nonce hn _ _ hlo hhi, hn0, if_pos (by omega)]
      simp [expected_nil]

theorem xorKeyStreamBlocksGeneric_eq_loop (dst src nonce key : List Nat) :
    xorKeyStreamBlocksGeneric dst src nonce key =
      blocksLoop (loopConsts nonce key) nonce (src.length / 64 + 1)
        (uint32LE (slice nonce 8 12)) (uint32LE (slice nonce 12 16))
        (quarterRound (loopConsts nonce key).c5 (uint32LE (slice nonce 12 16))
          (loopConsts nonce key).c13 (loopConsts nonce key).c1).1
        (quarterRound (loopConsts nonce key).c5 (uint32LE (slice nonce 12 16))
          (loopConsts nonce key).c13 (loopConsts nonce key).c1).2.1
        (quarterRound (loopConsts nonce key).c5 (uint32LE (slice nonce 12 16))
          (loopConsts nonce key).c13 (loopConsts nonce key).c1).2.2.1
        (quarterRound (loopConsts nonce key).c5 (uint32LE (slice nonce 12 16))
          (loopConsts nonce key).c13 (loopConsts nonce key).c1).2.2.2
        src dst [] := rfl

theorem xorKeyStreamBlocksGeneric_spec (dst src nonce key : List Nat) (hn : nonce.length = 16)
    (hb : IsBytes nonce) :
    xorKeyStreamBlocksGeneric dst src nonce key =
      if counterValue nonce + min src.length dst.length / 64 < 2 ^ 64 then
        .done ⟨expected key nonce (counterValue nonce)
              (src.take (64 * (min src.length dst.length / 64))) ++
            dst.drop (64 * (min src.length dst.length / 64)),
          withCounter nonce (counterValue nonce + min src.length dst.length / 64)⟩
      else
        .panicked .counterOverflow ⟨
            expected key nonce (counterValue nonce)
              (src.take (64 * (2 ^ 64 - counterValue nonce))) ++
            dst.drop (64 * (2 ^ 64 - counterValue nonce)), nonce⟩ := by
  have hfr : ∀ q : Nat × Nat × Nat × Nat, q = (q.1, q.2.1, q.2.2.1, q.2.2.2) := fun _ => rfl
  rw [xorKeyStreamBlocksGeneric_eq_loop,
    blocksLoop_spec nonce key hn _ _ _ _ _ _ _ src dst []
      (uint32LE_lt _ (isBytes_slice nonce hb 8 12))
      (uint32LE_lt _ (isBytes_slice nonce hb 12 16)) (hfr _) (by omega),
    ← counterValue_eq nonce hn hb]
  simp only [List.nil_append]

theorem tail_step (E R inp ks : List Nat) (full rem : Nat) (hE : E.length = full)
    (hR : rem ≤ R.length) (hN : full + rem = inp.length) :
    putSlice (E ++ R) full (full + rem)
        (xorTail (slice (E ++ R) full (full + rem)) (slice inp full (full + rem)) ks rem) =
      E ++ xorBytes (inp.drop full) ks rem ++ R.drop rem := by
  have h1 : slice (E ++ R) full (full + rem) = R.take rem := by
    subst hE
    rw [slice, List.take_append, List.drop_left]
  have h2 : slice inp full (full + rem) = inp.drop full := by
    rw [slice, hN, List.take_length]
  have h3 : (R.take rem).drop rem = [] := by
    apply List.drop_eq_nil_of_le; simp
  rw [h1, h2, xorTail_eq _ _ _ _ (by rw [List.length_take]; omega), h3, List.append_nil,
    putSlice]
  subst hE
  rw [List.take_left, List.drop_append, List.append_assoc]

theorem stream_join (key nonce inp : List Nat) (c n full rem : Nat) (hfull : full = 64 * n)
    (hN : full + rem = inp.length) (hrem : rem < 64) :
    expected key nonce c (inp.take full) ++ xorBytes (inp.drop full) (KS key nonce (c + n)) rem =
      expected key nonce c inp := by
  have hl : (inp.take full).length = full := by rw [List.length_take]; omega
  have hd : (inp.drop full).length = rem := by rw [List.length_drop]; omega
  have h := expected_append key nonce c (inp.take full) (inp.drop full) (by rw [hl]; omega)
  rw [List.take_append_drop, hl, show full / 64 = n by omega,
    expected_tail key nonce (c + n) (inp.drop full) (by omega), hd] at h
  exact h.symm

theorem genericXORKeyStream_spec (out inp nonce key : List Nat) (hn : nonce.length = 16)
    (hb : IsBytes nonce) (hlen : inp.length ≤ out.length) :
    genericXORKeyStream out inp nonce key =
      if counterValue nonce + inp.length / 64 < 2 ^ 64 then
        .done ⟨expected key nonce (counterValue nonce) inp ++ out.drop inp.length,
          if inp.length < 64 then nonce
          else withCounter nonce (counterValue nonce + inp.length / 64)⟩
      else
        .panicked .counterOverflow ⟨
            expected key nonce (counterValue nonce)
              (inp.take (64 * (2 ^ 64 - counterValue nonce))) ++
            out.drop (64 * (2 ^ 64 - counterValue nonce)), nonce⟩ := by
  have hc := counterValue_lt nonce hn hb
  have hmin : min inp.length out.length = inp.length := by omega
  have hfe : inp.length - inp.length % 64 = 64 * (inp.length / 64) := by omega
  have hN : 64 * (inp.length / 64) + inp.length % 64 = inp.length := by omega
  have hr64 : inp.length % 64 < 64 := by omega
  unfold genericXORKeyStream
  rw [if_neg (by omega)]
  simp only [hfe]
  by_cases hfull : 64 * (inp.length / 64) > 0
  · rw [if_pos hfull, xorKeyStreamBlocksGeneric_spec out inp nonce key hn hb, hmin]
    have h64 : ¬ inp.length < 64 := by omega
    by_cases hov : counterValue nonce + inp.length / 64 < 2 ^ 64
    · simp only [if_pos hov, if_neg h64]
      have hE : (expected key nonce (counterValue nonce)
          (inp.take (64 * (inp.length / 64)))).length = 64 * (inp.length / 64) := by
        rw [expected_length, List.length_take]; omega
      by_cases hrem : inp.length % 64 > 0 ∧ inp.length % 64 < 64
      · rw [if_pos hrem, if_pos (by simp only [List.length_append, List.length_drop, hE]; omega)]
        have hks : keyStreamBlock (withCounter nonce (counterValue nonce + inp.length / 64)) key =
            KS key nonce (counterValue nonce + inp.length / 64) := rfl
        rw [tail_step _ _ inp _ _ _ hE (by rw [List.length_drop]; omega) hN, hks,
          stream_join key nonce inp _ _ _ _ rfl hN hr64, List.drop_drop, hN]
      · rw [if_neg hrem]
        have h0 : inp.length % 64 = 0 := by omega
        have hNN : 64 * (inp.length / 64) = inp.length := by omega
        rw [hNN, List.take_length]
    · simp only [if_neg hov]
  · have h64 : inp.length < 64 := by omega
    have hz : inp.length / 64 = 0 := by omega
    have hz' : 64 * (inp.length / 64) = 0 := by omega
    rw [if_neg hfull, if_pos (by omega)]
    simp only [if_pos h64]
    by_cases hrem : inp.length % 64 > 0 ∧ inp.length % 64 < 64
    · rw [if_pos hrem, if_pos (by omega)]
      have hks : keyStreamBlock nonce key = KS key nonce (counterValue nonce + inp.length / 64) := by
        rw [hz, Nat.add_zero, KS, withCounter_counterValue nonce hn hb]
      have hnil : expected key nonce (counterValue nonce) (inp.take (64 * (inp.length / 64))) = [] := by
        rw [hz']; rfl
      have hts := tail_step [] out inp (keyStreamBlock nonce key) (64 * (inp.length / 64))
        (inp.length % 64) (by rw [hz']; rfl) (by omega) hN
      rw [List.nil_append] at hts
      rw [hts, hks, ← stream_join key nonce inp (counterValue nonce) (inp.length / 64)
        (64 * (inp.length / 64)) (inp.length % 64) rfl hN hr64, hnil, hz']
      have e : inp.length % 64 = inp.length := by omega
      simp only [List.nil_append, List.drop_zero, e]
    · rw [if_neg hrem]
      have h0 : inp.length = 0 := by omega
      have hnil : inp = [] := List.length_eq_zero.mp h0
      subst hnil
      simp [expected_nil]

theorem counterValue_withCounter (nonce : List Nat) (hn : nonce.length = 16) (c : Nat)
    (hc : c < 2 ^ 64) : counterValue (withCounter nonce c) = c := by
  obtain ⟨a0, a1, a2, a3, a4, a5, a6, a7, a8, a9, a10, a11, a12, a13, a14, a15, rfl⟩ :=
    exists_of_length_16 nonce hn
  simp only [withCounter, counterValue, putSlice, slice, leValue, leBytes, List.take, List.drop,
    List.cons_append, List.nil_append, Nat.div_div_eq_div_mul]
  omega

theorem withCounter_length (nonce : List Nat) (hn : nonce.length = 16) (c : Nat) :
    (withCounter nonce c).length = 16 := by
  obtain ⟨a0, a1, a2, a3, a4, a5, a6, a7, a8, a9, a10, a11, a12, a13, a14, a15, rfl⟩ :=
    exists_of_length_16 nonce hn
  rfl

theorem isBytes_withCounter (nonce : List Nat) (hn : nonce.length = 16) (hb : IsBytes nonce)
    (c : Nat) : IsBytes (withCounter nonce c) := by
  obtain ⟨a0, a1, a2, a3, a4, a5, a6, a7, a8, a9, a10, a11, a12, a13, a14, a15, rfl⟩ :=
    exists_of_length_16 nonce hn
  intro x hx
  simp only [withCounter, putSlice, leBytes, List.take, List.drop, List.cons_append,
    List.nil_append, List.append_nil, List.mem_cons, List.mem_nil_iff, or_false] at hx
  have h0 := hb a0 (by simp)
  have h1 := hb a1 (by simp)
  have h2 := hb a2 (by simp)
  have h3 := hb a3 (by simp)
  have h4 := hb a4 (by simp)
  have h5 := hb a5 (by simp)
  have h6 := hb a6 (by simp)
  have h7 := hb a7 (by simp)
  rcases hx with h | h | h | h | h | h | h | h | h | h | h | h | h | h | h | h <;> omega

theorem withCounter_withCounter (nonce : List Nat) (hn : nonce.length = 16) (c d : Nat) :
    withCounter (withCounter nonce c) d = withCounter nonce d := by
  obtain ⟨a0, a1, a2, a3, a4, a5, a6, a7, a8, a9, a10, a11, a12, a13, a14, a15, rfl⟩ :=
    exists_of_length_16 nonce hn
  rfl

theorem KS_withCounter (key nonce : List Nat) (hn : nonce.length = 16) (c d : Nat) :
    KS key (withCounter nonce c) d = KS key nonce d := by
  rw [KS, KS, withCounter_withCounter nonce hn]

theorem expected_withCounter (key nonce : List Nat) (hn : nonce.length = 16) (c d : Nat)
    (inp : List Nat) :
    expected key (withCounter nonce c) d inp = expected key nonce d inp := by
  simp only [expected, KS_withCounter key nonce hn]

theorem xor_cancel (a k : Nat) : (a ^^^ k) ^^^ k = a := by
  rw [Nat.xor_assoc, Nat.xor_self, Nat.xor_zero]

theorem expected_expected (key nonce : List Nat) (c : Nat) (inp : List Nat) :
    expected key nonce c (expected key nonce c inp) = inp := by
  apply List.ext_getElem
  · rw [expected_length, expected_length]
  · intro i h1 h2
    have hi : i < (expected key nonce c inp).length := by rw [expected_length]; exact h2
    rw [← List.getD_eq_getElem _ 0 h1, getD_expected _ _ _ _ _ hi, getD_expected _ _ _ _ _ h2,
      xor_cancel, List.getD_eq_getElem _ _ h2]

theorem take_expected_append (key nonce : List Nat) (c : Nat) (inp rest : List Nat) :
    (expected key nonce c inp ++ rest).take inp.length = expected key nonce c inp :=
  List.take_left' (expected_length key nonce c inp)

theorem twoCalls_spec (out1 out2 m nonce key : List Nat) (p : Nat) (hn : nonce.length = 16)
    (hb : IsBytes nonce) (hp : p ≤ m.length) (h1 : p ≤ out1.length)
    (h2 : m.length - p ≤ out2.length)
    (hctr : counterValue nonce + m.length / 64 < 2 ^ 64) :
    twoCalls out1 out2 m p nonce key =
      .done ⟨expected key nonce (counterValue nonce) (m.take p) ++
          expected key nonce (counterValue nonce + p / 64) (m.drop p),
        if m.length - p < 64 then
          (if p < 64 then nonce else withCounter nonce (counterValue nonce + p / 64))
        else withCounter nonce (counterValue nonce + p / 64 + (m.length - p) / 64)⟩ := by
  have hc := counterValue_lt nonce hn hb
  have hl1 : (m.take p).length = p := by rw [List.length_take]; omega
  have hl2 : (m.drop p).length = m.length - p := List.length_drop p m
  have hdiv : p / 64 + (m.length - p) / 64 ≤ m.length / 64 := by omega
  unfold twoCalls
  rw [genericXORKeyStream_spec out1 (m.take p) nonce key hn hb (by rw [hl1]; exact h1), hl1,
    if_pos (by omega)]
  simp only []
  by_cases hp64 : p < 64
  · have hz : p / 64 = 0 := by omega
    rw [if_pos hp64,
      genericXORKeyStream_spec out2 (m.drop p) nonce key hn hb (by rw [hl2]; exact h2), hl2,
      if_pos (by omega)]
    simp only [hz, Nat.add_zero]
    have e1 := take_expected_append key nonce (counterValue nonce) (m.take p) (out1.drop p)
    have e2 := take_expected_append key nonce (counterValue nonce) (m.drop p)
      (out2.drop (m.length - p))
    rw [hl1] at e1
    rw [hl2] at e2
    rw [e1, e2]
  · rw [if_neg hp64]
    have hn' := withCounter_length nonce hn (counterValue nonce + p / 64)
    have hb' := isBytes_withCounter nonce hn hb (counterValue nonce + p / 64)
    have hcv := counterValue_withCounter nonce hn (counterValue nonce + p / 64) (by omega)
    rw [genericXORKeyStream_spec out2 (m.drop p) _ key hn' hb' (by rw [hl2]; exact h2), hl2,
      hcv, if_pos (by omega)]
    simp only [expected_withCounter key nonce hn, withCounter_withCounter nonce hn]
    have e1 := take_expected_append key nonce (counterValue nonce) (m.take p) (out1.drop p)
    have e2 := take_expected_append key nonce (counterValue nonce + p / 64) (m.drop p)
      (out2.drop (m.length - p))
    rw [hl1] at e1
    rw [hl2] at e2
    rw [e1, e2]

theorem naiveBlocks_spec (nonce key : List Nat) (hn : nonce.length = 16) (n : Nat) :
    ∀ (c : Nat) (src dst : List Nat), 64 * n ≤ src.length → c + n < 2 ^ 64 →
      naiveBlocks n dst src (withCounter nonce c) key =
        (expected key nonce c (src.take (64 * n)) ++ dst.drop (64 * n),
          withCounter nonce (c + n)) := by
  induction n with
  | zero =>
    intro c src dst _ _
    simp [naiveBlocks, expected_nil]
  | succ n ih =>
    intro c src dst hsrc hc
    have hks : keyStreamBlock (withCounter nonce c) key = KS key nonce c := rfl
    have hl : 64 * n ≤ (src.drop 64).length := by rw [List.length_drop]; omega
    simp only [naiveBlocks]
    rw [hks, counterValue_withCounter nonce hn c (by omega), withCounter_withCounter nonce hn,
      ih (c + 1) (src.drop 64) (dst.drop 64) hl (by omega),
      ← expected_block key nonce c src (by omega),
      expected_take_succ key nonce c src n (by omega), List.drop_drop]
    simp only [List.append_assoc]
    rw [show 64 + 64 * n = 64 * (n + 1) by ring, show c + 1 + n = c + (n + 1) by ring]

theorem counterAfter_spec (key nonce : List Nat) (hn : nonce.length = 16) (hb : IsBytes nonce)
    (n : Nat) (hctr : counterValue nonce + n / 64 < 2 ^ 64) :
    (if n < 64 then nonce else withCounter nonce (counterValue nonce + n / 64)).length = 16 ∧
    IsBytes (if n < 64 then nonce else withCounter nonce (counterValue nonce + n / 64)) ∧
    counterValue (if n < 64 then nonce else withCounter nonce (counterValue nonce + n / 64)) =
      counterValue nonce + n / 64 ∧
    ∀ d inp,
      expected key (if n < 64 then nonce else withCounter nonce (counterValue nonce + n / 64)) d
        inp = expected key nonce d inp := by
  by_cases h : n < 64
  · simp only [if_pos h]
    exact ⟨hn, hb, by omega, fun _ _ => trivial⟩
  · simp only [if_neg h]
    exact ⟨withCounter_length nonce hn _, isBytes_withCounter nonce hn hb _,
      counterValue_withCounter nonce hn _ hctr, fun d inp => expected_withCounter key nonce hn _ d inp⟩

theorem xor_xor_same (a b k : Nat) : (a ^^^ k) ^^^ (b ^^^ k) = a ^^^ b := by
  rw [Nat.xor_assoc, Nat.xor_comm b k, ← Nat.xor_assoc k, Nat.xor_self, Nat.zero_xor]

theorem take8_withCounter (nonce : List Nat) (hn : nonce.length = 16) (c : Nat) :
    (withCounter nonce c).take 8 = nonce.take 8 := by
  obtain ⟨a0, a1, a2, a3, a4, a5, a6, a7, a8, a9, a10, a11, a12, a13, a14, a15, rfl⟩ :=
    exists_of_length_16 nonce hn
  rfl

theorem quarterRoundInv_of_eq {a b c d a' b' c' d' : Nat}
    (h : quarterRound a b c d = (a', b', c', d')) :
    quarterRoundInv a' b' c' d' = (a, b, c, d) := by
  simp only [quarterRound, Prod.mk.injEq] at h
  obtain ⟨h1, h2, h3, h4⟩ := h
  subst h2
  subst h3
  subst h4
  subst h1
  simp only [quarterRoundInv, xor_cancel]

theorem quarterRound_of_eq {a b c d a' b' c' d' : Nat}
    (h : quarterRoundInv a b c d = (a', b', c', d')) :
    quarterRound a' b' c' d' = (a, b, c, d) := by
  simp only [quarterRoundInv, Prod.mk.injEq] at h
  obtain ⟨h1, h2, h3, h4⟩ := h
  subst h1
  subst h4
  subst h3
  subst h2
  simp only [quarterRound, xor_cancel]

theorem quarterRoundInv_lt (a b c d : Nat) (ha : a < 2 ^ 32) (hb : b < 2 ^ 32) (hc : c < 2 ^ 32)
    (hd : d < 2 ^ 32) :
    (quarterRoundInv a b c d).1 < 2 ^ 32 ∧ (quarterRoundInv a b c d).2.1 < 2 ^ 32 ∧
    (quarterRoundInv a b c d).2.2.1 < 2 ^ 32 ∧ (quarterRoundInv a b c d).2.2.2 < 2 ^ 32 := by
  simp only [quarterRoundInv]
  exact ⟨Nat.xor_lt_two_pow ha (rotateLeft32_lt _ 18 (add32_lt _ _)),
    Nat.xor_lt_two_pow hb (rotateLeft32_lt _ 7 (add32_lt _ _)),
    Nat.xor_lt_two_pow hc (rotateLeft32_lt _ 9 (add32_lt _ _)),
    Nat.xor_lt_two_pow hd (rotateLeft32_lt _ 13 (add32_lt _ _))⟩

theorem oddRoundInv_oddRound (x : Words16) : oddRoundInv (oddRound x) = x := by
  rcases x with ⟨x0, x1, x2, x3, x4, x5, x6, x7, x8, x9, x10, x11, x12, x13, x14, x15⟩
  rcases e0 : quarterRound x0 x4 x8 x12 with ⟨a0, a4, a8, a12⟩
  rcases e1 : quarterRound x5 x9 x13 x1 with ⟨a5, a9, a13, a1⟩
  rcases e2 : quarterRound x10 x14 x2 x6 with ⟨a10, a14, a2, a6⟩
  rcases e3 : quarterRound x15 x3 x7 x11 with ⟨a15, a3, a7, a11⟩
  simp only [oddRound, oddRoundInv, e0, e1, e2, e3, quarterRoundInv_of_eq e0,
    quarterRoundInv_of_eq e1, quarterRoundInv_of_eq e2, quarterRoundInv_of_eq e3]

theorem oddRound_oddRoundInv (x : Words16) : oddRound (oddRoundInv x) = x := by
  rcases x with ⟨x0, x1, x2, x3, x4, x5, x6, x7, x8, x9, x10, x11, x12, x13, x14, x15⟩
  rcases e0 : quarterRoundInv x0 x4 x8 x12 with ⟨a0, a4, a8, a12⟩
  rcases e1 : quarterRoundInv x5 x9 x13 x1 with ⟨a5, a9, a13, a1⟩
  rcases e2 : quarterRoundInv x10 x14 x2 x6 with ⟨a10, a14, a2, a6⟩
  rcases e3 : quarterRoundInv x15 x3 x7 x11 with ⟨a15, a3, a7, a11⟩
  simp only [oddRound, oddRoundInv, e0, e1, e2, e3, quarterRound_of_eq e0,
    quarterRound_of_eq e1, quarterRound_of_eq e2, quarterRound_of_eq e3]

theorem evenRoundInv_evenRound (x : Words16) : evenRoundInv (evenRound x) = x := by
  rcases x with ⟨x0, x1, x2, x3, x4, x5, x6, x7, x8, x9, x10, x11, x12, x13, x14, x15⟩
  rcases e0 : quarterRound x0 x1 x2 x3 with ⟨a0, a1, a2, a3⟩
  rcases e1 : quarterRound x5 x6 x7 x4 with ⟨a5, a6, a7, a4⟩
  rcases e2 : quarterRound x10 x11 x8 x9 with ⟨a10, a11, a8, a9⟩
  rcases e3 : quarterRound x15 x12 x13 x14 with ⟨a15, a12, a13, a14⟩
  simp only [evenRound, evenRoundInv, e0, e1, e2, e3, quarterRoundInv_of_eq e0,
    quarterRoundInv_of_eq e1, quarterRoundInv_of_eq e2, quarterRoundInv_of_eq e3]

theorem evenRound_evenRoundInv (x : Words16) : evenRound (evenRoundInv x) = x := by
  rcases x with ⟨x0, x1, x2, x3, x4, x5, x6, x7, x8, x9, x10, x11, x12, x13, x14, x15⟩
  rcases e0 : quarterRoundInv x0 x1 x2 x3 with ⟨a0, a1, a2, a3⟩
  rcases e1 : quarterRoundInv x5 x6 x7 x4 with ⟨a5, a6, a7, a4⟩
  rcases e2 : quarterRoundInv x10 x11 x8 x9 with ⟨a10, a11, a8, a9⟩
  rcases e3 : quarterRoundInv x15 x12 x13 x14 with ⟨a15, a12, a13, a14⟩
  simp only [evenRound, evenRoundInv, e0, e1, e2, e3, quarterRound_of_eq e0,
    quarterRound_of_eq e1, quarterRound_of_eq e2, quarterRound_of_eq e3]

theorem permuteInv_permute (x : Words16) : permuteInv (permute x) = x := by
  rw [permute_eq_iterate, permuteInv]
  have h : Function.LeftInverse (fun y => oddRoundInv (evenRoundInv y))
      (fun y => evenRound (oddRound y)) := by
    intro y
    simp only [evenRoundInv_evenRound, oddRoundInv_oddRound]
  exact h.iterate 10 x

theorem permute_permuteInv (x : Words16) : permute (permuteInv x) = x := by
  rw [permute_eq_iterate, permuteInv]
  have h : Function.LeftInverse (fun y => evenRound (oddRound y))
      (fun y => oddRoundInv (evenRoundInv y)) := by
    intro y
    simp only [oddRound_oddRoundInv, evenRound_evenRoundInv]
  exact h.iterate 10 x

theorem oddRound_isWords (x : Words16) (h : x.IsWords) : (oddRound x).IsWords := by
  rcases x with ⟨x0, x1, x2, x3, x4, x5, x6, x7, x8, x9, x10, x11, x12, x13, x14, x15⟩
  obtain ⟨h0, h1, h2, h3, h4, h5, h6, h7, h8, h9, h10, h11, h12, h13, h14, h15⟩ := h
  have q0 := quarterRound_lt x0 x4 x8 x12 h0 h4 h8 h12
  have q1 := quarterRound_lt x5 x9 x13 x1 h5 h9 h13 h1
  have q2 := quarterRound_lt x10 x14 x2 x6 h10 h14 h2 h6
  have q3 := quarterRound_lt x15 x3 x7 x11 h15 h3 h7 h11
  rcases e0 : quarterRound x0 x4 x8 x12 with ⟨a0, a4, a8, a12⟩
  rcases e1 : quarterRound x5 x9 x13 x1 with ⟨a5, a9, a13, a1⟩
  rcases e2 : quarterRound x10 x14 x2 x6 with ⟨a10, a14, a2, a6⟩
  rcases e3 : quarterRound x15 x3 x7 x11 with ⟨a15, a3, a7, a11⟩
  rw [e0] at q0
  rw [e1] at q1
  rw [e2] at q2
  rw [e3] at q3
  simp only [oddRound, e0, e1, e2, e3, Words16.IsWords]
  exact ⟨q0.1, q1.2.2.2, q2.2.2.1, q3.2.1, q0.2.1, q1.1, q2.2.2.2, q3.2.2.1, q0.2.2.1, q1.2.1,
    q2.1, q3.2.2.2, q0.2.2.2, q1.2.2.1, q2.2.1, q3.1⟩

theorem evenRound_isWords (x : Words16) (h : x.IsWords) : (evenRound x).IsWords := by
  rcases x with ⟨x0, x1, x2, x3, x4, x5, x6, x7, x8, x9, x10, x11, x12, x13, x14, x15⟩
  obtain ⟨h0, h1, h2, h3, h4, h5, h6, h7, h8, h9, h10, h11, h12, h13, h14, h15⟩ := h
  have q0 := quarterRound_lt x0 x1 x2 x3 h0 h1 h2 h3
  have q1 := quarterRound_lt x5 x6 x7 x4 h5 h6 h7 h4
  have q2 := quarterRound_lt x10 x11 x8 x9 h10 h11 h8 h9
  have q3 := quarterRound_lt x15 x12 x13 x14 h15 h12 h13 h14
  rcases e0 : quarterRound x0 x1 x2 x3 with ⟨a0, a1, a2, a3⟩
  rcases e1 : quarterRound x5 x6 x7 x4 with ⟨a5, a6, a7, a4⟩
  rcases e2 : quarterRound x10 x11 x8 x9 with ⟨a10, a11, a8, a9⟩
  rcases e3 : quarterRound x15 x12 x13 x14 with ⟨a15, a12, a13, a14⟩
  rw [e0] at q0
  rw [e1] at q1
  rw [e2] at q2
  rw [e3] at q3
  simp only [evenRound, e0, e1, e2, e3, Words16.IsWords]
  exact ⟨q0.1, q0.2.1, q0.2.2.1, q0.2.2.2, q1.2.2.2, q1.1, q1.2.1, q1.2.2.1, q2.2.2.1, q2.2.2.2,
    q2.1, q2.2.1, q3.2.1, q3.2.2.1, q3.2.2.2, q3.1⟩

theorem oddRoundInv_isWords (x : Words16) (h : x.IsWords) : (oddRoundInv x).IsWords := by
  rcases x with ⟨x0, x1, x2, x3, x4, x5, x6, x7, x8, x9, x10, x11, x12, x13, x14, x15⟩
  obtain ⟨h0, h1, h2, h3, h4, h5, h6, h7, h8, h9, h10, h11, h12, h13, h14, h15⟩ := h
  have q0 := quarterRoundInv_lt x0 x4 x8 x12 h0 h4 h8 h12
  have q1 := quarterRoundInv_lt x5 x9 x13 x1 h5 h9 h13 h1
  have q2 := quarterRoundInv_lt x10 x14 x2 x6 h10 h14 h2 h6
  have q3 := quarterRoundInv_lt x15 x3 x7 x11 h15 h3 h7 h11
  rcases e0 : quarterRoundInv x0 x4 x8 x12 with ⟨a0, a4, a8, a12⟩
  rcases e1 : quarterRoundInv x5 x9 x13 x1 with ⟨a5, a9, a13, a1⟩
  rcases e2 : quarterRoundInv x10 x14 x2 x6 with ⟨a10, a14, a2, a6⟩
  rcases e3 : quarterRoundInv x15 x3 x7 x11 with ⟨a15, a3, a7, a11⟩
  rw [e0] at q0
  rw [e1] at q1
  rw [e2] at q2
  rw [e3] at q3
  simp only [oddRoundInv, e0, e1, e2, e3, Words16.IsWords]
  exact ⟨q0.1, q1.2.2.2, q2.2.2.1, q3.2.1, q0.2.1, q1.1, q2.2.2.2, q3.2.2.1, q0.2.2.1, q1.2.1,
    q2.1, q3.2.2.2, q0.2.2.2, q1.2.2.1, q2.2.1, q3.1⟩

theorem evenRoundInv_isWords (x : Words16) (h : x.IsWords) : (evenRoundInv x).IsWords := by
  rcases x with ⟨x0, x1, x2, x3, x4, x5, x6, x7, x8, x9, x10, x11, x12, x13, x14, x15⟩
  obtain ⟨h0, h1, h2, h3, h4, h5, h6, h7, h8, h9, h10, h11, h12, h13, h14, h15⟩ := h
  have q0 := quarterRoundInv_lt x0 x1 x2 x3 h0 h1 h2 h3
  have q1 := quarterRoundInv_lt x5 x6 x7 x4 h5 h6 h7 h4
  have q2 := quarterRoundInv_lt x10 x11 x8 x9 h10 h11 h8 h9
  have q3 := quarterRoundInv_lt x15 x12 x13 x14 h15 h12 h13 h14
  rcases e0 : quarterRoundInv x0 x1 x2 x3 with ⟨a0, a1, a2, a3⟩
  rcases e1 : quarterRoundInv x5 x6 x7 x4 with ⟨a5, a6, a7, a4⟩
  rcases e2 : quarterRoundInv x10 x11 x8 x9 with ⟨a10, a11, a8, a9⟩
  rcases e3 : quarterRoundInv x15 x12 x13 x14 with ⟨a15, a12, a13, a14⟩
  rw [e0] at q0
  rw [e1] at q1
  rw [e2] at q2
  rw [e3] at q3
  simp only [evenRoundInv, e0, e1, e2, e3, Words16.IsWords]
  exact ⟨q0.1, q0.2.1, q0.2.2.1, q0.2.2.2, q1.2.2.2, q1.1, q1.2.1, q1.2.2.1, q2.2.2.1, q2.2.2.2,
    q2.1, q2.2.1, q3.2.1, q3.2.2.1, q3.2.2.2, q3.1⟩

theorem iterate_isWords (f : Words16 → Words16) (hf : ∀ y : Words16, y.IsWords → (f y).IsWords)
    (n : Nat) (x : Words16) (h : x.IsWords) : (f^[n] x).IsWords := by
  induction n generalizing x with
  | zero => exact h
  | succ n ih =>
    rw [Function.iterate_succ_apply]
    exact ih (f x) (hf x h)

theorem permute_isWords (x : Words16) (h : x.IsWords) : (permute x).IsWords := by
  rw [permute_eq_iterate]
  exact iterate_isWords _ (fun y hy => evenRound_isWords _ (oddRound_isWords y hy)) 10 x h

theorem permuteInv_isWords (x : Words16) (h : x.IsWords) : (permuteInv x).IsWords :=
  iterate_isWords _ (fun y hy => oddRoundInv_isWords _ (evenRoundInv_isWords y hy)) 10 x h

theorem second_call_same_block (out1 out2 m1 m2 nonce key : List Nat)
    (hn : nonce.length = 16) (hb : IsBytes nonce) (hlen1 : m1.length ≤ out1.length)
    (hlen2 : m2.length ≤ out2.length)
    (hctr : counterValue nonce + m1.length / 64 + m2.length / 64 < 2 ^ 64) :
    ∃ r1 r2, genericXORKeyStream out1 m1 nonce key = .done r1 ∧
      genericXORKeyStream out2 m2 r1.counter key = .done r2 ∧
      counterValue r1.counter = counterValue nonce + m1.length / 64 ∧
      (∀ j, j < m1.length % 64 →
        r1.out.getD (64 * (m1.length / 64) + j) 0 =
          m1.getD (64 * (m1.length / 64) + j) 0 ^^^
            (KS key nonce (counterValue nonce + m1.length / 64)).getD j 0) ∧
      (∀ j, j < m2.length → j < 64 →
        r2.out.getD j 0 =
          m2.getD j 0 ^^^ (KS key nonce (counterValue nonce + m1.length / 64)).getD j 0) ∧
      (m1.length < 64 → m2.length < 64 → ∀ i, i < m1.length → i < m2.length →
        r1.out.getD i 0 ^^^ r2.out.getD i 0 = m1.getD i 0 ^^^ m2.getD i 0) := by
  have hctr1 : counterValue nonce + m1.length / 64 < 2 ^ 64 := by omega
  obtain ⟨hn', hb', hcv, hexp⟩ := counterAfter_spec key nonce hn hb m1.length hctr1
  have hpt1 : ∀ i, i < m1.length →
      (expected key nonce (counterValue nonce) m1 ++ out1.drop m1.length).getD i 0 =
        m1.getD i 0 ^^^ (KS key nonce (counterValue nonce + i / 64)).getD (i % 64) 0 := by
    intro i hi
    rw [List.getD_append _ _ _ _ (by rw [expected_length]; exact hi), getD_expected _ _ _ _ _ hi]
  have hpt2 : ∀ i, i < m2.length →
      (expected key nonce (counterValue nonce + m1.length / 64) m2 ++
          out2.drop m2.length).getD i 0 =
        m2.getD i 0 ^^^
          (KS key nonce (counterValue nonce + m1.length / 64 + i / 64)).getD (i % 64) 0 := by
    intro i hi
    rw [List.getD_append _ _ _ _ (by rw [expected_length]; exact hi), getD_expected _ _ _ _ _ hi]
  have h2small : ∀ j, j < m2.length → j < 64 →
      (expected key nonce (counterValue nonce + m1.length / 64) m2 ++
          out2.drop m2.length).getD j 0 =
        m2.getD j 0 ^^^ (KS key nonce (counterValue nonce + m1.length / 64)).getD j 0 := by
    intro j hj hj64
    have h := hpt2 j hj
    rw [show j / 64 = 0 by omega, show j % 64 = j by omega, Nat.add_zero] at h
    exact h
  refine ⟨_, _, by rw [genericXORKeyStream_spec out1 m1 nonce key hn hb hlen1, if_pos hctr1],
    by rw [genericXORKeyStream_spec out2 m2 _ key hn' hb' hlen2, hcv, if_pos hctr, hexp],
    hcv, ?_, h2small, ?_⟩
  · intro j hj
    have h := hpt1 (64 * (m1.length / 64) + j) (by omega)
    rw [show (64 * (m1.length / 64) + j) / 64 = m1.length / 64 by omega,
      show (64 * (m1.length / 64) + j) % 64 = j by omega] at h
    exact h
  · intro h1 h2 i hi1 hi2
    have e1 := hpt1 i hi1
    rw [show i / 64 = 0 by omega, show i % 64 = i by omega, Nat.add_zero] at e1
    have e2 := h2small i hi2 (by omega)
    simp only [] at e1 e2 ⊢
    rw [e1, e2, show m1.length / 64 = 0 by omega, Nat.add_zero, xor_xor_same]

/-! ## The claims -/

set_option maxRecDepth 100000

/-- C1: for a 16-byte nonce/counter block and an output buffer at least as long as
the input, when `ctr0 + N/64 < 2^64` the call completes, keeps the length of the
output buffer, and every output byte `i < N` is the input byte XORed with byte
`i mod 64` of the keystream block for the un-wrapped counter `ctr0 + i/64`; chunks
with different indices use different counter blocks; the last `N mod 64` bytes use
the first bytes of the block after the last full one. -/
theorem genericXORKeyStream_stream (out inp nonce key : List Nat) (hn : nonce.length = 16)
    (hb : IsBytes nonce) (hlen : inp.length ≤ out.length)
    (hctr : counterValue nonce + inp.length / 64 < 2 ^ 64) :
    ∃ m, genericXORKeyStream out inp nonce key = .done m ∧
      m.out.length = out.length ∧
      (∀ i, i < inp.length →
        counterValue nonce + i / 64 < 2 ^ 64 ∧
        m.out.getD i 0 =
          inp.getD i 0 ^^^ (KS key nonce (counterValue nonce + i / 64)).getD (i % 64) 0) ∧
      (∀ i j, i < inp.length → j < inp.length → i / 64 ≠ j / 64 →
        withCounter nonce (counterValue nonce + i / 64) ≠
          withCounter nonce (counterValue nonce + j / 64)) ∧
      (∀ j, j < inp.length % 64 →
        m.out.getD (64 * (inp.length / 64) + j) 0 =
          inp.getD (64 * (inp.length / 64) + j) 0 ^^^
            (KS key nonce (counterValue nonce + inp.length / 64)).getD j 0) := by
  have hpt : ∀ i, i < inp.length →
      (expected key nonce (counterValue nonce) inp ++ out.drop inp.length).getD i 0 =
        inp.getD i 0 ^^^ (KS key nonce (counterValue nonce + i / 64)).getD (i % 64) 0 := by
    intro i hi
    rw [List.getD_append _ _ _ _ (by rw [expected_length]; exact hi), getD_expected _ _ _ _ _ hi]
  refine ⟨_, by rw [genericXORKeyStream_spec out inp nonce key hn hb hlen, if_pos hctr], ?_,
    ?_, ?_, ?_⟩
  · simp only [List.length_append, expected_length, List.length_drop]; omega
  · intro i hi
    exact ⟨by have := (Nat.div_le_div_right (Nat.le_of_lt hi) : i / 64 ≤ inp.length / 64); omega, hpt i hi⟩
  · intro i j hi hj hij h
    have hi' : counterValue nonce + i / 64 < 2 ^ 64 := by
      have := (Nat.div_le_div_right (Nat.le_of_lt hi) : i / 64 ≤ inp.length / 64); omega
    have hj' : counterValue nonce + j / 64 < 2 ^ 64 := by
      have := (Nat.div_le_div_right (Nat.le_of_lt hj) : j / 64 ≤ inp.length / 64); omega
    have := congrArg counterValue h
    rw [counterValue_withCounter nonce hn _ hi', counterValue_withCounter nonce hn _ hj'] at this
    omega
  · intro j hj
    have h := hpt (64 * (inp.length / 64) + j) (by omega)
    rw [show (64 * (inp.length / 64) + j) / 64 = inp.length / 64 by omega,
      show (64 * (inp.length / 64) + j) % 64 = j by omega] at h
    exact h

/-- C1 at a 70-byte input whose second block follows a carry of the low counter word. -/
theorem genericXORKeyStream_stream_witness :
    ([0, 0, 0, 0, 0, 0, 0, 0, 255, 255, 255, 255, 0, 0, 0, 0] : List Nat).length = 16 ∧
    IsBytes [0, 0, 0, 0, 0, 0, 0, 0, 255, 255, 255, 255, 0, 0, 0, 0] ∧
    (List.replicate 70 7).length ≤ (List.replicate 72 0).length ∧
    counterValue [0, 0, 0, 0, 0, 0, 0, 0, 255, 255, 255, 255, 0, 0, 0, 0] +
      (List.replicate 70 7).length / 64 < 2 ^ 64 ∧
    ∃ m, genericXORKeyStream (List.replicate 72 0) (List.replicate 70 7)
        [0, 0, 0, 0, 0, 0, 0, 0, 255, 255, 255, 255, 0, 0, 0, 0] (List.replicate 32 1) =
          .done m ∧
      m.out.length = 72 ∧
      m.out.getD 69 0 = 7 ^^^ (KS (List.replicate 32 1)
        [0, 0, 0, 0, 0, 0, 0, 0, 255, 255, 255, 255, 0, 0, 0, 0] 4294967296).getD 5 0 := by
  have hn : ([0, 0, 0, 0, 0, 0, 0, 0, 255, 255, 255, 255, 0, 0, 0, 0] : List Nat).length = 16 := by
    decide
  have hb : IsBytes [0, 0, 0, 0, 0, 0, 0, 0, 255, 255, 255, 255, 0, 0, 0, 0] := by decide
  have hlen : (List.replicate 70 7).length ≤ (List.replicate 72 0).length := by decide
  have hctr : counterValue [0, 0, 0, 0, 0, 0, 0, 0, 255, 255, 255, 255, 0, 0, 0, 0] +
      (List.replicate 70 7).length / 64 < 2 ^ 64 := by decide
  obtain ⟨m, h1, h2, h3, _, _⟩ := genericXORKeyStream_stream (List.replicate 72 0)
    (List.replicate 70 7) [0, 0, 0, 0, 0, 0, 0, 0, 255, 255, 255, 255, 0, 0, 0, 0]
    (List.replicate 32 1) hn hb hlen hctr
  exact ⟨hn, hb, hlen, hctr, m, h1, h2, (h3 69 (by decide)).2⟩

/-- C2: for a key and a nonce/counter block made of bytes, `keyStreamBlock` writes
64 bytes, and for every `j < 16` the bytes `4j .. 4j+4` are the little-endian
encoding of `(p[j] + s[j]) mod 2^32`, where `s` is the reference initial state and
`p` the result of ten reference double rounds on `s`. -/
theorem keyStreamBlock_reference (nonce key : List Nat) (hkb : IsBytes key)
    (hnb : IsBytes nonce) :
    (keyStreamBlock nonce key).length = 64 ∧
    ∀ j, j < 16 →
      slice (keyStreamBlock nonce key) (4 * j) (4 * j + 4) =
        leBytes32 (((refPermute (refState nonce key)).getD j 0 +
          (refState nonce key).getD j 0) % 2 ^ 32) := by
  refine ⟨by rw [keyStreamBlock_eq_output, outputBytes_length], fun j hj => ?_⟩
  rw [keyStreamBlock_eq_output, slice_outputBytes _ _ j hj, permute_eq_iterate,
    ← refDoubleRound_iterate, initWords_toList nonce key hkb hnb]
  rfl

/-- C2 at the key `1, 2, .., 32` and the nonce/counter block `1, 2, .., 16`. -/
theorem keyStreamBlock_reference_witness :
    IsBytes (List.range' 1 32) ∧ IsBytes (List.range' 1 16) ∧
    (keyStreamBlock (List.range' 1 16) (List.range' 1 32)).length = 64 ∧
    slice (keyStreamBlock (List.range' 1 16) (List.range' 1 32)) 36 40 =
      leBytes32 (((refPermute (refState (List.range' 1 16) (List.range' 1 32))).getD 9 0 +
        (refState (List.range' 1 16) (List.range' 1 32)).getD 9 0) % 2 ^ 32) :=
  ⟨by decide, by decide,
    (keyStreamBlock_reference (List.range' 1 16) (List.range' 1 32) (by decide) (by decide)).1,
    (keyStreamBlock_reference (List.range' 1 16) (List.range' 1 32) (by decide) (by decide)).2 9
      (by decide)⟩

/-- C3: for 32-bit words `a b c d`, `quarterRound` returns `(a', b', c', d')` with
`b' = b xor rotl(a + d, 7)`, `c' = c xor rotl(b' + a, 9)`,
`d' = d xor rotl(c' + b', 13)`, `a' = a xor rotl(d' + c', 18)`, additions
modulo `2^32`; the four results are 32-bit words again (the function is total);
and `quarterRound(1, 0, 0, 0)` is the vector of the Salsa20 specification. -/
theorem quarterRound_contract (a b c d : Nat) (ha : a < 2 ^ 32) (hb : b < 2 ^ 32)
    (hc : c < 2 ^ 32) (hd : d < 2 ^ 32) :
    (∃ a' b' c' d' : Nat,
      quarterRound a b c d = (a', b', c', d') ∧
      b' = b ^^^ rotl32 ((a + d) % 2 ^ 32) 7 ∧
      c' = c ^^^ rotl32 ((b' + a) % 2 ^ 32) 9 ∧
      d' = d ^^^ rotl32 ((c' + b') % 2 ^ 32) 13 ∧
      a' = a ^^^ rotl32 ((d' + c') % 2 ^ 32) 18 ∧
      a' < 2 ^ 32 ∧ b' < 2 ^ 32 ∧ c' < 2 ^ 32 ∧ d' < 2 ^ 32) ∧
    quarterRound 1 0 0 0 = (0x08008145, 0x00000080, 0x00010200, 0x20500000) := by
  refine ⟨⟨_, _, _, _, quarterRound_eq_spec a b c d, rfl, rfl, rfl, rfl, ?_⟩, by decide⟩
  have h := quarterRound_lt a b c d ha hb hc hd
  rw [quarterRound_eq_spec] at h
  exact h

/-- C3 at the words `1, 0, 0, 0`. -/
theorem quarterRound_contract_witness :
    (1 < 2 ^ 32 ∧ 0 < 2 ^ 32) ∧
    ((∃ a' b' c' d' : Nat,
      quarterRound 1 0 0 0 = (a', b', c', d') ∧
      b' = 0 ^^^ rotl32 ((1 + 0) % 2 ^ 32) 7 ∧
      c' = 0 ^^^ rotl32 ((b' + 1) % 2 ^ 32) 9 ∧
      d' = 0 ^^^ rotl32 ((c' + b') % 2 ^ 32) 13 ∧
      a' = 1 ^^^ rotl32 ((d' + c') % 2 ^ 32) 18 ∧
      a' < 2 ^ 32 ∧ b' < 2 ^ 32 ∧ c' < 2 ^ 32 ∧ d' < 2 ^ 32) ∧
    quarterRound 1 0 0 0 = (0x08008145, 0x00000080, 0x00010200, 0x20500000)) :=
  ⟨by decide, quarterRound_contract 1 0 0 0 (by decide) (by decide) (by decide) (by decide)⟩

/-- C4: under the same conditions the call leaves the counter at `ctr0 + N/64`:
the low word is `(lo0 + N/64) mod 2^32`, the high word is `hi0` plus the number of
wraps of the low word; an input shorter than one block leaves the buffer as it
was, and a trailing partial block changes nothing, the final buffer being the one
the call on the full blocks alone leaves. -/
theorem genericXORKeyStream_counter (out inp nonce key : List Nat) (hn : nonce.length = 16)
    (hb : IsBytes nonce) (hlen : inp.length ≤ out.length)
    (hctr : counterValue nonce + inp.length / 64 < 2 ^ 64) :
    ∃ m, genericXORKeyStream out inp nonce key = .done m ∧
      counterValue m.counter = counterValue nonce + inp.length / 64 ∧
      uint32LE (slice m.counter 8 12) =
        (uint32LE (slice nonce 8 12) + inp.length / 64) % 2 ^ 32 ∧
      uint32LE (slice m.counter 12 16) =
        uint32LE (slice nonce 12 16) + (uint32LE (slice nonce 8 12) + inp.length / 64) / 2 ^ 32 ∧
      (inp.length < 64 → m.counter = nonce) ∧
      ∃ m', genericXORKeyStream out (inp.take (64 * (inp.length / 64))) nonce key = .done m' ∧
        m'.counter = m.counter := by
  have hlo := uint32LE_lt _ (isBytes_slice nonce hb 8 12)
  have hhi := uint32LE_lt _ (isBytes_slice nonce hb 12 16)
  have hcv := counterValue_eq nonce hn hb
  have hl : (inp.take (64 * (inp.length / 64))).length = 64 * (inp.length / 64) := by
    rw [List.length_take]; omega
  refine ⟨_, by rw [genericXORKeyStream_spec out inp nonce key hn hb hlen, if_pos hctr], ?_,
    ?_, ?_, ?_, _, by rw [genericXORKeyStream_spec out _ nonce key hn hb (by rw [hl]; omega),
      hl, if_pos (by omega)], ?_⟩
  · by_cases h : inp.length < 64
    · simp only [if_pos h]; omega
    · simp only [if_neg h]
      exact counterValue_withCounter nonce hn _ hctr
  · by_cases h : inp.length < 64
    · simp only [if_pos h]; omega
    · simp only [if_neg h]
      rw [ctrLo_withCounter nonce hn, hcv]; omega
  · by_cases h : inp.length < 64
    · simp only [if_pos h]; omega
    · simp only [if_neg h]
      rw [ctrHi_withCounter nonce hn, hcv]; rw [hcv] at hctr; omega
  · intro h
    simp only [if_pos h]
  · by_cases h : inp.length < 64
    · simp only [if_pos h, if_pos (show 64 * (inp.length / 64) < 64 by omega)]
    · simp only [if_neg h, if_neg (show ¬ 64 * (inp.length / 64) < 64 by omega)]
      rw [show 64 * (inp.length / 64) / 64 = inp.length / 64 by omega]

/-- C4 at `lo0 = 0xFFFFFFFF`, `hi0 = 0`, `N = 64`: the low word becomes 0, the high word 1. -/
theorem genericXORKeyStream_counter_witness :
    ([0, 0, 0, 0, 0, 0, 0, 0, 255, 255, 255, 255, 0, 0, 0, 0] : List Nat).length = 16 ∧
    IsBytes [0, 0, 0, 0, 0, 0, 0, 0, 255, 255, 255, 255, 0, 0, 0, 0] ∧
    (List.replicate 64 0).length ≤ (List.replicate 64 0).length ∧
    counterValue [0, 0, 0, 0, 0, 0, 0, 0, 255, 255, 255, 255, 0, 0, 0, 0] +
      (List.replicate 64 0).length / 64 < 2 ^ 64 ∧
    uint32LE (slice [0, 0, 0, 0, 0, 0, 0, 0, 255, 255, 255, 255, 0, 0, 0, 0] 8 12) = 0xFFFFFFFF ∧
    uint32LE (slice [0, 0, 0, 0, 0, 0, 0, 0, 255, 255, 255, 255, 0, 0, 0, 0] 12 16) = 0 ∧
    ∃ m, genericXORKeyStream (List.replicate 64 0) (List.replicate 64 0)
        [0, 0, 0, 0, 0, 0, 0, 0, 255, 255, 255, 255, 0, 0, 0, 0] (List.replicate 32 0) =
          .done m ∧
      uint32LE (slice m.counter 8 12) = 0 ∧ uint32LE (slice m.counter 12 16) = 1 := by
  have hn : ([0, 0, 0, 0, 0, 0, 0, 0, 255, 255, 255, 255, 0, 0, 0, 0] : List Nat).length = 16 := by
    decide
  have hb : IsBytes [0, 0, 0, 0, 0, 0, 0, 0, 255, 255, 255, 255, 0, 0, 0, 0] := by decide
  have hlen : (List.replicate 64 0).length ≤ (List.replicate 64 0).length := by decide
  have hctr : counterValue [0, 0, 0, 0, 0, 0, 0, 0, 255, 255, 255, 255, 0, 0, 0, 0] +
      (List.replicate 64 0).length / 64 < 2 ^ 64 := by decide
  obtain ⟨m, h1, _, h3, h4, _⟩ := genericXORKeyStream_counter (List.replicate 64 0)
    (List.replicate 64 0) [0, 0, 0, 0, 0, 0, 0, 0, 255, 255, 255, 255, 0, 0, 0, 0]
    (List.replicate 32 0) hn hb hlen hctr
  exact ⟨hn, hb, hlen, hctr, by decide, by decide, m, h1, by rw [h3]; decide, by rw [h4]; decide⟩

/-- C5: for a 16-byte nonce/counter block, `genericXORKeyStream` panics exactly when
the output buffer is shorter than the input or `ctr0 + N/64 >= 2^64`; in every
other case it completes, with the counter at the un-wrapped value `ctr0 + N/64`.
A panic is never a bounds-check failure, and the fuel of the model never runs
out. -/
theorem genericXORKeyStream_panics_iff (out inp nonce key : List Nat) (hn : nonce.length = 16)
    (hb : IsBytes nonce) :
    ((∃ p m, genericXORKeyStream out inp nonce key = .panicked p m) ↔
      (out.length < inp.length ∨ 2 ^ 64 ≤ counterValue nonce + inp.length / 64)) ∧
    (¬ (out.length < inp.length ∨ 2 ^ 64 ≤ counterValue nonce + inp.length / 64) →
      ∃ m, genericXORKeyStream out inp nonce key = .done m ∧
        counterValue m.counter = counterValue nonce + inp.length / 64) ∧
    (∀ p m, genericXORKeyStream out inp nonce key = .panicked p m →
      (p = .outTooSmall ∧ out.length < inp.length) ∨
      (p = .counterOverflow ∧ 2 ^ 64 ≤ counterValue nonce + inp.length / 64)) ∧
    genericXORKeyStream out inp nonce key ≠ .outOfFuel := by
  by_cases hlen : out.length < inp.length
  · have h : genericXORKeyStream out inp nonce key = .panicked .outTooSmall ⟨out, nonce⟩ := by
      unfold genericXORKeyStream; rw [if_pos hlen]
    rw [h]
    refine ⟨⟨fun _ => Or.inl hlen, fun _ => ⟨_, _, rfl⟩⟩, fun hno => absurd (Or.inl hlen) hno,
      ?_, by simp⟩
    intro p m hpm
    injection hpm with hp _
    exact Or.inl ⟨hp.symm, hlen⟩
  · have hle : inp.length ≤ out.length := by omega
    rw [genericXORKeyStream_spec out inp nonce key hn hb hle]
    by_cases hctr : counterValue nonce + inp.length / 64 < 2 ^ 64
    · rw [if_pos hctr]
      refine ⟨⟨fun ⟨p, m, h⟩ => by simp at h, fun h => by omega⟩, fun _ => ⟨_, rfl, ?_⟩,
        fun p m h => by simp at h, by simp⟩
      by_cases h : inp.length < 64
      · simp only [if_pos h]; omega
      · simp only [if_neg h]
        exact counterValue_withCounter nonce hn _ hctr
    · rw [if_neg hctr]
      refine ⟨⟨fun _ => Or.inr (by omega), fun _ => ⟨_, _, rfl⟩⟩,
        fun hno => absurd (Or.inr (by omega)) hno, ?_, by simp⟩
      intro p m hpm
      injection hpm with hp _
      exact Or.inr ⟨hp.symm, by omega⟩

/-- C5 at the counter `2^64 - 1` and one full block of input: the call panics. -/
theorem genericXORKeyStream_panics_iff_witness :
    ([0, 0, 0, 0, 0, 0, 0, 0, 255, 255, 255, 255, 255, 255, 255, 255] : List Nat).length = 16 ∧
    IsBytes [0, 0, 0, 0, 0, 0, 0, 0, 255, 255, 255, 255, 255, 255, 255, 255] ∧
    ∃ p m, genericXORKeyStream (List.replicate 64 0) (List.replicate 64 0)
      [0, 0, 0, 0, 0, 0, 0, 0, 255, 255, 255, 255, 255, 255, 255, 255] (List.replicate 32 0) =
        .panicked p m :=
  ⟨by decide, by decide,
    (genericXORKeyStream_panics_iff (List.replicate 64 0) (List.replicate 64 0)
      [0, 0, 0, 0, 0, 0, 0, 0, 255, 255, 255, 255, 255, 255, 255, 255] (List.replicate 32 0)
      (by decide) (by decide)).1.2 (Or.inr (by decide))⟩

/-- C6: when encrypting `msg` from the nonce/counter block `n0` does not fail and
leaves the ciphertext `ct` in the first `len(msg)` bytes of its output buffer,
running the function on `ct` from the same `n0` into any buffer that is long
enough completes and leaves exactly `msg` in the first `len(msg)` bytes. -/
theorem genericXORKeyStream_involutive (out1 out2 msg n0 key : List Nat) (m1 : Mem)
    (hn : n0.length = 16) (hb : IsBytes n0) (hlen2 : msg.length ≤ out2.length)
    (h1 : genericXORKeyStream out1 msg n0 key = .done m1) :
    ∃ m2, genericXORKeyStream out2 (m1.out.take msg.length) n0 key = .done m2 ∧
      m2.out.take msg.length = msg := by
  have hlen1 : msg.length ≤ out1.length := by
    by_contra hc
    unfold genericXORKeyStream at h1
    rw [if_pos (by omega)] at h1
    simp at h1
  rw [genericXORKeyStream_spec out1 msg n0 key hn hb hlen1] at h1
  by_cases hctr : counterValue n0 + msg.length / 64 < 2 ^ 64
  · rw [if_pos hctr] at h1
    injection h1 with h1
    subst h1
    simp only [take_expected_append]
    have hl : (expected key n0 (counterValue n0) msg).length = msg.length := expected_length _ _ _ _
    refine ⟨_, by rw [genericXORKeyStream_spec out2 _ n0 key hn hb (by rw [hl]; exact hlen2), hl,
      if_pos hctr], ?_⟩
    simp only [expected_expected]
    exact List.take_left' rfl
  · rw [if_neg hctr] at h1
    simp at h1

/-- C6 at the message `[1, 2, 3]` with the all-zero key and nonce. -/
theorem genericXORKeyStream_involutive_witness :
    (List.replicate 16 0).length = 16 ∧ IsBytes (List.replicate 16 0) ∧
    ([1, 2, 3] : List Nat).length ≤ ([9, 9, 9, 9] : List Nat).length ∧
    genericXORKeyStream [0, 0, 0] [1, 2, 3] (List.replicate 16 0) (List.replicate 32 0) =
      .done ⟨[155, 149, 245], List.replicate 16 0⟩ ∧
    ∃ m2, genericXORKeyStream [9, 9, 9, 9] [155, 149, 245] (List.replicate 16 0)
        (List.replicate 32 0) = .done m2 ∧
      m2.out.take 3 = [1, 2, 3] :=
  ⟨by decide, by decide, by decide, by decide,
    genericXORKeyStream_involutive [0, 0, 0] [9, 9, 9, 9] [1, 2, 3] (List.replicate 16 0)
      (List.replicate 32 0) ⟨[155, 149, 245], List.replicate 16 0⟩ (by decide) (by decide)
      (by decide) (by decide)⟩

/-- C7, as stated, fails: splitting the two-byte message `[1, 2]` after its first
byte, the second call starts the keystream block again at byte 0, so the two calls
produce `[155, 152]` where the single call produces `[155, 149]`. -/
theorem chunking_counterexample :
    twoCalls [0] [0] [1, 2] 1 (List.replicate 16 0) (List.replicate 32 0) =
      .done ⟨[155, 152], List.replicate 16 0⟩ ∧
    genericXORKeyStream [0, 0] [1, 2] (List.replicate 16 0) (List.replicate 32 0) =
      .done ⟨[155, 149], List.replicate 16 0⟩ ∧
    ([155, 152] : List Nat) ≠ [155, 149] := by
  decide

/-- C7, amended: for every split point `p <= N` (no counter overflow in the single
call) both calls complete; the first `p` bytes always agree with the single call,
the second call produces `m[p..N]` XORed with the keystream that starts at byte 0
of the block for counter `ctr0 + p/64`, and when `p` is a multiple of 64 the
concatenation equals the output of the single call. -/
theorem chunking_at_block_boundaries (out1 out2 out m nonce key : List Nat) (p : Nat)
    (hn : nonce.length = 16) (hb : IsBytes nonce) (hp : p ≤ m.length) (h1 : p ≤ out1.length)
    (h2 : m.length - p ≤ out2.length) (h : m.length ≤ out.length)
    (hctr : counterValue nonce + m.length / 64 < 2 ^ 64) :
    ∃ r r', genericXORKeyStream out m nonce key = .done r ∧
      twoCalls out1 out2 m p nonce key = .done r' ∧
      r'.out = expected key nonce (counterValue nonce) (m.take p) ++
        expected key nonce (counterValue nonce + p / 64) (m.drop p) ∧
      r'.out.take p = r.out.take p ∧
      (p % 64 = 0 → r'.out = r.out.take m.length) := by
  have hl1 : (m.take p).length = p := by rw [List.length_take]; omega
  have hsplit : expected key nonce (counterValue nonce) m =
      expected key nonce (counterValue nonce) (m.take p ++ m.drop p) := by
    rw [List.take_append_drop]
  refine ⟨_, _, by rw [genericXORKeyStream_spec out m nonce key hn hb h, if_pos hctr],
    twoCalls_spec out1 out2 m nonce key p hn hb hp h1 h2 hctr, rfl, ?_, ?_⟩
  · simp only []
    have e1 : (expected key nonce (counterValue nonce) (m.take p)).length = p := by
      rw [expected_length, hl1]
    rw [List.take_left' e1, List.take_append_of_le_length (by rw [expected_length]; exact hp)]
    apply List.ext_getElem
    · rw [e1, List.length_take, expected_length]; omega
    · intro i hi1 hi2
      rw [e1] at hi1
      rw [← List.getD_eq_getElem _ 0, ← List.getD_eq_getElem _ 0,
        getD_expected _ _ _ _ _ (by rw [hl1]; exact hi1)]
      simp only [List.getD_eq_getElem?_getD, List.getElem?_take, hi1, if_true]
      have := getD_expected key nonce (counterValue nonce) m i (by omega)
      simp only [List.getD_eq_getElem?_getD] at this
      rw [this]
  · intro hp64
    simp only []
    rw [take_expected_append, hsplit, expected_append _ _ _ _ _ (by rw [hl1]; exact hp64), hl1]

/-- C7, amended, at a 70-byte message split after its first block. -/
theorem chunking_at_block_boundaries_witness :
    (List.replicate 16 0).length = 16 ∧ IsBytes (List.replicate 16 0) ∧
    64 ≤ (List.replicate 70 5).length ∧ 64 ≤ (List.replicate 64 0).length ∧
    (List.replicate 70 5).length - 64 ≤ (List.replicate 6 0).length ∧
    (List.replicate 70 5).length ≤ (List.replicate 70 0).length ∧
    counterValue (List.replicate 16 0) + (List.replicate 70 5).length / 64 < 2 ^ 64 ∧
    ∃ r r', genericXORKeyStream (List.replicate 70 0) (List.replicate 70 5) (List.replicate 16 0)
        (List.replicate 32 0) = .done r ∧
      twoCalls (List.replicate 64 0) (List.replicate 6 0) (List.replicate 70 5) 64
        (List.replicate 16 0) (List.replicate 32 0) = .done r' ∧
      r'.out = r.out.take 70 := by
  have hn : (List.replicate 16 0).length = 16 := by decide
  have hb : IsBytes (List.replicate 16 0) := by decide
  have hp : 64 ≤ (List.replicate 70 5).length := by decide
  have h1 : 64 ≤ (List.replicate 64 0).length := by decide
  have h2 : (List.replicate 70 5).length - 64 ≤ (List.replicate 6 0).length := by decide
  have h : (List.replicate 70 5).length ≤ (List.replicate 70 0).length := by decide
  have hctr : counterValue (List.replicate 16 0) + (List.replicate 70 5).length / 64 < 2 ^ 64 := by
    decide
  obtain ⟨r, r', e1, e2, _, _, e5⟩ := chunking_at_block_boundaries (List.replicate 64 0)
    (List.replicate 6 0) (List.replicate 70 0) (List.replicate 70 5) (List.replicate 16 0)
    (List.replicate 32 0) 64 hn hb hp h1 h2 h hctr
  exact ⟨hn, hb, hp, h1, h2, h, hctr, r, r', e1, e2, e5 (by decide)⟩

/-- C8: for every split point `p <= N` that is a multiple of 64 (no counter
overflow in the single call), the two calls that share the nonce/counter buffer
complete, their concatenated output is the output of the single call, and the
counter buffer ends in the same state. -/
theorem resumable_at_block_boundaries (out1 out2 out m nonce key : List Nat) (p : Nat)
    (hn : nonce.length = 16) (hb : IsBytes nonce) (hp : p ≤ m.length) (hp64 : p % 64 = 0)
    (h1 : p ≤ out1.length) (h2 : m.length - p ≤ out2.length) (h : m.length ≤ out.length)
    (hctr : counterValue nonce + m.length / 64 < 2 ^ 64) :
    ∃ r, genericXORKeyStream out m nonce key = .done r ∧
      twoCalls out1 out2 m p nonce key = .done ⟨r.out.take m.length, r.counter⟩ := by
  have hl1 : (m.take p).length = p := by rw [List.length_take]; omega
  have hsplit : expected key nonce (counterValue nonce) m =
      expected key nonce (counterValue nonce) (m.take p ++ m.drop p) := by
    rw [List.take_append_drop]
  refine ⟨_, by rw [genericXORKeyStream_spec out m nonce key hn hb h, if_pos hctr], ?_⟩
  rw [twoCalls_spec out1 out2 m nonce key p hn hb hp h1 h2 hctr]
  simp only []
  rw [take_expected_append, hsplit, expected_append _ _ _ _ _ (by rw [hl1]; exact hp64), hl1]
  congr 2
  by_cases hN : m.length < 64
  · have hp0 : p = 0 := by omega
    subst hp0
    simp only [if_pos hN, Nat.sub_zero, if_pos (show 0 < 64 by norm_num)]
  · rw [if_neg hN]
    by_cases hq : m.length - p < 64
    · rw [if_pos hq, if_neg (by omega), show m.length / 64 = p / 64 by omega]
    · rw [if_neg hq, Nat.add_assoc, show p / 64 + (m.length - p) / 64 = m.length / 64 by omega]

/-- C8 at a 130-byte message split after its first block, across a carry of the low
counter word. -/
theorem resumable_at_block_boundaries_witness :
    ([0, 0, 0, 0, 0, 0, 0, 0, 255, 255, 255, 255, 0, 0, 0, 0] : List Nat).length = 16 ∧
    IsBytes [0, 0, 0, 0, 0, 0, 0, 0, 255, 255, 255, 255, 0, 0, 0, 0] ∧
    64 ≤ (List.replicate 130 5).length ∧ 64 % 64 = 0 ∧ 64 ≤ (List.replicate 64 0).length ∧
    (List.replicate 130 5).length - 64 ≤ (List.replicate 66 0).length ∧
    (List.replicate 130 5).length ≤ (List.replicate 130 0).length ∧
    counterValue [0, 0, 0, 0, 0, 0, 0, 0, 255, 255, 255, 255, 0, 0, 0, 0] +
      (List.replicate 130 5).length / 64 < 2 ^ 64 ∧
    ∃ r, genericXORKeyStream (List.replicate 130 0) (List.replicate 130 5)
        [0, 0, 0, 0, 0, 0, 0, 0, 255, 255, 255, 255, 0, 0, 0, 0] (List.replicate 32 0) = .done r ∧
      twoCalls (List.replicate 64 0) (List.replicate 66 0) (List.replicate 130 5) 64
        [0, 0, 0, 0, 0, 0, 0, 0, 255, 255, 255, 255, 0, 0, 0, 0] (List.replicate 32 0) =
          .done ⟨r.out.take (List.replicate 130 5).length, r.counter⟩ :=
  ⟨by decide, by decide, by decide, by decide, by decide, by decide, by decide, by decide,
    resumable_at_block_boundaries (List.replicate 64 0) (List.replicate 66 0)
      (List.replicate 130 0) (List.replicate 130 5)
      [0, 0, 0, 0, 0, 0, 0, 0, 255, 255, 255, 255, 0, 0, 0, 0] (List.replicate 32 0) 64
      (by decide) (by decide) (by decide) (by decide) (by decide) (by decide) (by decide)
      (by decide)⟩

/-- C9: with the all-zero key, the all-zero nonce/counter block and 64 zero bytes of
input, `genericXORKeyStream` writes the published Salsa20/20 keystream block
`9a 97 f6 5b ...`, which is also what `keyStreamBlock` produces for that key and
nonce, and leaves the counter's low word at 1 and its high word at 0. -/
theorem known_answer_zero_key :
    genericXORKeyStream (List.replicate 64 0) (List.replicate 64 0) (List.replicate 16 0)
        (List.replicate 32 0) =
      .done ⟨[0x9a, 0x97, 0xf6, 0x5b, 0x9b, 0x4c, 0x72, 0x1b, 0x96, 0x0a, 0x67, 0x21, 0x45, 0xfc,
          0xa8, 0xd4, 0xe3, 0x2e, 0x67, 0xf9, 0x11, 0x1e, 0xa9, 0x79, 0xce, 0x9c, 0x48, 0x26,
          0x80, 0x6a, 0xee, 0xe6, 0x3d, 0xe9, 0xc0, 0xda, 0x2b, 0xd7, 0xf9, 0x1e, 0xbc, 0xb2,
          0x63, 0x9b, 0xf9, 0x89, 0xc6, 0x25, 0x1b, 0x29, 0xbf, 0x38, 0xd3, 0x9a, 0x9b, 0xdc,
          0xe7, 0xc5, 0x5f, 0x4b, 0x2a, 0xc1, 0x2a, 0x39],
        [0, 0, 0, 0, 0, 0, 0, 0, 1, 0, 0, 0, 0, 0, 0, 0]⟩ ∧
    keyStreamBlock (List.replicate 16 0) (List.replicate 32 0) =
      [0x9a, 0x97, 0xf6, 0x5b, 0x9b, 0x4c, 0x72, 0x1b, 0x96, 0x0a, 0x67, 0x21, 0x45, 0xfc,
        0xa8, 0xd4, 0xe3, 0x2e, 0x67, 0xf9, 0x11, 0x1e, 0xa9, 0x79, 0xce, 0x9c, 0x48, 0x26,
        0x80, 0x6a, 0xee, 0xe6, 0x3d, 0xe9, 0xc0, 0xda, 0x2b, 0xd7, 0xf9, 0x1e, 0xbc, 0xb2,
        0x63, 0x9b, 0xf9, 0x89, 0xc6, 0x25, 0x1b, 0x29, 0xbf, 0x38, 0xd3, 0x9a, 0x9b, 0xdc,
        0xe7, 0xc5, 0x5f, 0x4b, 0x2a, 0xc1, 0x2a, 0x39] ∧
    uint32LE (slice [0, 0, 0, 0, 0, 0, 0, 0, 1, 0, 0, 0, 0, 0, 0, 0] 8 12) = 1 ∧
    uint32LE (slice [0, 0, 0, 0, 0, 0, 0, 0, 1, 0, 0, 0, 0, 0, 0, 0] 12 16) = 0 := by
  decide

/-- C10: on an empty input `genericXORKeyStream` completes for every key, every
nonce/counter block (whatever its counter) and every output buffer, and leaves
both the output buffer and the nonce/counter buffer exactly as they were. -/
theorem genericXORKeyStream_empty (out counter key : List Nat) :
    genericXORKeyStream out [] counter key = .done ⟨out, counter⟩ := by
  simp [genericXORKeyStream]

/-- C11: for a 16-byte nonce/counter block, `len(dst) >= len(src)` and no counter
overflow (`ctr0 + len(src)/64 < 2^64`), the memoised `xorKeyStreamBlocksGeneric`
completes and leaves the same `dst` bytes and the same nonce/counter buffer as
the naive loop that calls `keyStreamBlock` once per full chunk and increments the
64-bit counter by one after each. -/
theorem memoised_eq_naive (dst src nonce key : List Nat) (hn : nonce.length = 16)
    (hb : IsBytes nonce) (hlen : src.length ≤ dst.length)
    (hctr : counterValue nonce + src.length / 64 < 2 ^ 64) :
    xorKeyStreamBlocksGeneric dst src nonce key =
      .done ⟨(naiveBlocks (src.length / 64) dst src nonce key).1,
        (naiveBlocks (src.length / 64) dst src nonce key).2⟩ := by
  have hmin : min src.length dst.length = src.length := by omega
  have h := naiveBlocks_spec nonce key hn (src.length / 64) (counterValue nonce) src dst
    (by omega) hctr
  rw [withCounter_counterValue nonce hn hb] at h
  rw [xorKeyStreamBlocksGeneric_spec dst src nonce key hn hb, hmin, if_pos hctr, h]

/-- C11 at `lo0 = 0xFFFFFFFF`, `hi0 = 0` and a 128-byte input: the second chunk is
encrypted after the low counter word has wrapped, and the counter ends at `(1, 1)`. -/
theorem memoised_eq_naive_witness :
    ([0, 0, 0, 0, 0, 0, 0, 0, 255, 255, 255, 255, 0, 0, 0, 0] : List Nat).length = 16 ∧
    IsBytes [0, 0, 0, 0, 0, 0, 0, 0, 255, 255, 255, 255, 0, 0, 0, 0] ∧
    (List.replicate 128 0).length ≤ (List.replicate 128 9).length ∧
    counterValue [0, 0, 0, 0, 0, 0, 0, 0, 255, 255, 255, 255, 0, 0, 0, 0] +
      (List.replicate 128 0).length / 64 < 2 ^ 64 ∧
    (naiveBlocks 2 (List.replicate 128 9) (List.replicate 128 0)
      [0, 0, 0, 0, 0, 0, 0, 0, 255, 255, 255, 255, 0, 0, 0, 0] (List.replicate 32 0)).2 =
        [0, 0, 0, 0, 0, 0, 0, 0, 1, 0, 0, 0, 1, 0, 0, 0] ∧
    xorKeyStreamBlocksGeneric (List.replicate 128 9) (List.replicate 128 0)
        [0, 0, 0, 0, 0, 0, 0, 0, 255, 255, 255, 255, 0, 0, 0, 0] (List.replicate 32 0) =
      .done ⟨(naiveBlocks ((List.replicate 128 0).length / 64) (List.replicate 128 9)
          (List.replicate 128 0) [0, 0, 0, 0, 0, 0, 0, 0, 255, 255, 255, 255, 0, 0, 0, 0]
          (List.replicate 32 0)).1,
        (naiveBlocks ((List.replicate 128 0).length / 64) (List.replicate 128 9)
          (List.replicate 128 0) [0, 0, 0, 0, 0, 0, 0, 0, 255, 255, 255, 255, 0, 0, 0, 0]
          (List.replicate 32 0)).2⟩ :=
  ⟨by decide, by decide, by decide, by decide, by decide,
    memoised_eq_naive (List.replicate 128 9) (List.replicate 128 0)
      [0, 0, 0, 0, 0, 0, 0, 0, 255, 255, 255, 255, 0, 0, 0, 0] (List.replicate 32 0)
      (by decide) (by decide) (by decide) (by decide)⟩

/-- C12: two successive calls on one 16-byte nonce/counter buffer, for two
messages shorter than one block, both complete, the first leaves the buffer as it
was, and both use the same keystream bytes: `out1[i] xor out2[i] = m1[i] xor m2[i]`
for every index `i` below both lengths.  More generally, when the counter does
not overflow, the call that follows a call of length `N1` starts from the block
counter `ctr0 + N1/64` that the trailing partial block of the first call used:
the last `N1 mod 64` bytes of the first output and the first bytes of the second
output are XORed with the same keystream block from its byte 0 on. -/
theorem keystream_reuse_after_tail (out1 out2 m1 m2 nonce key : List Nat)
    (hn : nonce.length = 16) (hb : IsBytes nonce) (hlen1 : m1.length ≤ out1.length)
    (hlen2 : m2.length ≤ out2.length) :
    (m1.length < 64 → m2.length < 64 →
      ∃ r1 r2, genericXORKeyStream out1 m1 nonce key = .done r1 ∧
        genericXORKeyStream out2 m2 r1.counter key = .done r2 ∧
        r1.counter = nonce ∧
        ∀ i, i < m1.length → i < m2.length →
          r1.out.getD i 0 ^^^ r2.out.getD i 0 = m1.getD i 0 ^^^ m2.getD i 0) ∧
    (counterValue nonce + m1.length / 64 + m2.length / 64 < 2 ^ 64 →
      ∃ r1 r2, genericXORKeyStream out1 m1 nonce key = .done r1 ∧
        genericXORKeyStream out2 m2 r1.counter key = .done r2 ∧
        counterValue r1.counter = counterValue nonce + m1.length / 64 ∧
        (∀ j, j < m1.length % 64 →
          r1.out.getD (64 * (m1.length / 64) + j) 0 =
            m1.getD (64 * (m1.length / 64) + j) 0 ^^^
              (KS key nonce (counterValue nonce + m1.length / 64)).getD j 0) ∧
        (∀ j, j < m2.length → j < 64 →
          r2.out.getD j 0 =
            m2.getD j 0 ^^^ (KS key nonce (counterValue nonce + m1.length / 64)).getD j 0)) := by
  have hc := counterValue_lt nonce hn hb
  refine ⟨fun h1 h2 => ?_, fun hctr => ?_⟩
  · obtain ⟨r1, r2, e1, e2, _, _, _, e6⟩ := second_call_same_block out1 out2 m1 m2 nonce key hn
      hb hlen1 hlen2 (by omega)
    refine ⟨r1, r2, e1, e2, ?_, e6 h1 h2⟩
    rw [genericXORKeyStream_spec out1 m1 nonce key hn hb hlen1, if_pos (by omega)] at e1
    injection e1 with e1
    rw [← e1]
    simp only [if_pos h1]
  · obtain ⟨r1, r2, e1, e2, e3, e4, e5, _⟩ := second_call_same_block out1 out2 m1 m2 nonce key
      hn hb hlen1 hlen2 hctr
    exact ⟨r1, r2, e1, e2, e3, e4, e5⟩

/-- C12 at the messages `[1, 2, 3]` and `[7, 7]` with the all-zero key and nonce. -/
theorem keystream_reuse_after_tail_witness :
    (List.replicate 16 0).length = 16 ∧ IsBytes (List.replicate 16 0) ∧
    ([1, 2, 3] : List Nat).length ≤ ([0, 0, 0] : List Nat).length ∧
    ([7, 7] : List Nat).length ≤ ([0, 0] : List Nat).length ∧
    ∃ r1 r2, genericXORKeyStream [0, 0, 0] [1, 2, 3] (List.replicate 16 0)
        (List.replicate 32 0) = .done r1 ∧
      genericXORKeyStream [0, 0] [7, 7] r1.counter (List.replicate 32 0) = .done r2 ∧
      r1.out.getD 1 0 ^^^ r2.out.getD 1 0 = 2 ^^^ 7 := by
  have hn : (List.replicate 16 0).length = 16 := by decide
  have hb : IsBytes (List.replicate 16 0) := by decide
  have h1 : ([1, 2, 3] : List Nat).length ≤ ([0, 0, 0] : List Nat).length := by decide
  have h2 : ([7, 7] : List Nat).length ≤ ([0, 0] : List Nat).length := by decide
  obtain ⟨r1, r2, e1, e2, _, e4⟩ := (keystream_reuse_after_tail [0, 0, 0] [0, 0] [1, 2, 3]
    [7, 7] (List.replicate 16 0) (List.replicate 32 0) hn hb h1 h2).1 (by decide) (by decide)
  exact ⟨hn, hb, h1, h2, r1, r2, e1, e2, e4 1 (by decide) (by decide)⟩

/-- C13, as stated, fails.  With a 128-byte `src` and a 100-byte `dst` the loop
guard `len(dst) >= 64` stops after one block: `dst[64]` keeps its value `0`
although the second full block of `src` asks for `0 xor 171`, and the counter
advances by one only.  With the counter at `2^64 - 1` the call panics instead of
returning. -/
theorem blocks_doc_counterexample :
    (∃ m, xorKeyStreamBlocksGeneric (List.replicate 100 0) (List.replicate 128 0)
        (List.replicate 16 0) (List.replicate 32 0) = .done m ∧
      m.out.getD 64 0 = 0 ∧
      (List.replicate 128 0).getD 64 0 ^^^
        (KS (List.replicate 32 0) (List.replicate 16 0) 1).getD 0 0 = 171 ∧
      m.counter = [0, 0, 0, 0, 0, 0, 0, 0, 1, 0, 0, 0, 0, 0, 0, 0]) ∧
    (∃ m, xorKeyStreamBlocksGeneric (List.replicate 64 0) (List.replicate 64 0)
        [0, 0, 0, 0, 0, 0, 0, 0, 255, 255, 255, 255, 255, 255, 255, 255]
        (List.replicate 32 0) = .panicked .counterOverflow m) := by
  refine ⟨⟨_, rfl, ?_, ?_, ?_⟩, ⟨_, rfl⟩⟩ <;> decide

/-- C13, amended: for a 16-byte nonce/counter block, a `dst` that has room for the
full blocks of `src` (`64 * (len(src)/64) <= len(dst)`) and no counter overflow,
`xorKeyStreamBlocksGeneric` completes, `dst[i] = src[i] xor keystream[i]` for
every `i < 64 * (len(src)/64)`, and every other byte of `dst` is unchanged. -/
theorem blocks_doc_amended (dst src nonce key : List Nat) (hn : nonce.length = 16)
    (hb : IsBytes nonce) (hroom : 64 * (src.length / 64) ≤ dst.length)
    (hctr : counterValue nonce + src.length / 64 < 2 ^ 64) :
    ∃ m, xorKeyStreamBlocksGeneric dst src nonce key = .done m ∧
      m.out.length = dst.length ∧
      (∀ i, i < 64 * (src.length / 64) →
        m.out.getD i 0 =
          src.getD i 0 ^^^ (KS key nonce (counterValue nonce + i / 64)).getD (i % 64) 0) ∧
      (∀ i, 64 * (src.length / 64) ≤ i → m.out.getD i 0 = dst.getD i 0) := by
  have hmin : min src.length dst.length / 64 = src.length / 64 := by omega
  have hl : (src.take (64 * (src.length / 64))).length = 64 * (src.length / 64) := by
    rw [List.length_take]; omega
  have hE : (expected key nonce (counterValue nonce)
      (src.take (64 * (src.length / 64)))).length = 64 * (src.length / 64) := by
    rw [expected_length, hl]
  refine ⟨_, by rw [xorKeyStreamBlocksGeneric_spec dst src nonce key hn hb, hmin, if_pos hctr],
    ?_, ?_, ?_⟩
  · simp only [List.length_append, hE, List.length_drop]; omega
  · intro i hi
    simp only []
    rw [List.getD_append _ _ _ _ (by rw [hE]; exact hi),
      getD_expected _ _ _ _ _ (by rw [hl]; exact hi)]
    congr 1
    simp only [List.getD_eq_getElem?_getD, List.getElem?_take, hi, if_true]
  · intro i hi
    simp only []
    rw [List.getD_append_right _ _ _ _ (by rw [hE]; exact hi), hE]
    simp only [List.getD_eq_getElem?_getD, List.getElem?_drop]
    rw [show 64 * (src.length / 64) + (i - 64 * (src.length / 64)) = i by omega]

/-- C13, amended, at a 130-byte `src` and a 128-byte `dst`. -/
theorem blocks_doc_amended_witness :
    (List.replicate 16 0).length = 16 ∧ IsBytes (List.replicate 16 0) ∧
    64 * ((List.replicate 130 3).length / 64) ≤ (List.replicate 128 0).length ∧
    counterValue (List.replicate 16 0) + (List.replicate 130 3).length / 64 < 2 ^ 64 ∧
    ∃ m, xorKeyStreamBlocksGeneric (List.replicate 128 0) (List.replicate 130 3)
        (List.replicate 16 0) (List.replicate 32 0) = .done m ∧
      m.out.length = (List.replicate 128 0).length :=
  ⟨by decide, by decide, by decide, by decide,
    (blocks_doc_amended (List.replicate 128 0) (List.replicate 130 3) (List.replicate 16 0)
      (List.replicate 32 0) (by decide) (by decide) (by decide) (by decide)).imp
      (fun _ h => ⟨h.1, h.2.1⟩)⟩

/-- C14: for a 16-byte nonce/counter block, a call with `len(out) >= N` and no
counter overflow completes, and whenever the call completes the nonce/counter
buffer keeps its length and its first 8 bytes, the output buffer keeps its
length, and every output byte at an index `i >= N` keeps its previous value.  Key
and input are only read by the source, so the embedding passes them as values
and a call returns nothing but the output and nonce/counter buffers. -/
theorem genericXORKeyStream_frame (out inp nonce key : List Nat) (hn : nonce.length = 16)
    (hb : IsBytes nonce) (hlen : inp.length ≤ out.length) :
    (counterValue nonce + inp.length / 64 < 2 ^ 64 →
      ∃ m, genericXORKeyStream out inp nonce key = .done m) ∧
    ∀ m, genericXORKeyStream out inp nonce key = .done m →
      m.counter.take 8 = nonce.take 8 ∧ m.counter.length = 16 ∧
      m.out.length = out.length ∧
      (∀ i, inp.length ≤ i → m.out.getD i 0 = out.getD i 0) ∧
      m.out.drop inp.length = out.drop inp.length := by
  rw [genericXORKeyStream_spec out inp nonce key hn hb hlen]
  refine ⟨fun hctr => ⟨_, by rw [if_pos hctr]⟩, fun m hm => ?_⟩
  by_cases hctr : counterValue nonce + inp.length / 64 < 2 ^ 64
  · rw [if_pos hctr] at hm
    injection hm with hm
    subst hm
    have hE := expected_length key nonce (counterValue nonce) inp
    refine ⟨?_, ?_, ?_, ?_, ?_⟩
    · by_cases h : inp.length < 64
      · simp only [if_pos h]
      · simp only [if_neg h]
        exact take8_withCounter nonce hn _
    · by_cases h : inp.length < 64
      · simp only [if_pos h]; exact hn
      · simp only [if_neg h]
        exact withCounter_length nonce hn _
    · simp only [List.length_append, hE, List.length_drop]; omega
    · intro i hi
      simp only []
      rw [List.getD_append_right _ _ _ _ (by rw [hE]; exact hi), hE]
      simp only [List.getD_eq_getElem?_getD, List.getElem?_drop]
      rw [show inp.length + (i - inp.length) = i by omega]
    · simp only []
      rw [List.drop_left' hE]
  · rw [if_neg hctr] at hm
    simp at hm

/-- C14 at a 70-byte input in a 72-byte output buffer. -/
theorem genericXORKeyStream_frame_witness :
    (List.replicate 16 1).length = 16 ∧ IsBytes (List.replicate 16 1) ∧
    (List.replicate 70 7).length ≤ (List.replicate 72 9).length ∧
    counterValue (List.replicate 16 1) + (List.replicate 70 7).length / 64 < 2 ^ 64 ∧
    ∃ m, genericXORKeyStream (List.replicate 72 9) (List.replicate 70 7) (List.replicate 16 1)
        (List.replicate 32 0) = .done m ∧
      m.counter.take 8 = [1, 1, 1, 1, 1, 1, 1, 1] ∧ m.out.drop 70 = [9, 9] := by
  have hn : (List.replicate 16 1).length = 16 := by decide
  have hb : IsBytes (List.replicate 16 1) := by decide
  have hlen : (List.replicate 70 7).length ≤ (List.replicate 72 9).length := by decide
  have hctr : counterValue (List.replicate 16 1) + (List.replicate 70 7).length / 64 < 2 ^ 64 := by
    decide
  have h := genericXORKeyStream_frame (List.replicate 72 9) (List.replicate 70 7)
    (List.replicate 16 1) (List.replicate 32 0) hn hb hlen
  obtain ⟨m, hm⟩ := h.1 hctr
  obtain ⟨f1, _, _, _, f5⟩ := h.2 m hm
  exact ⟨hn, hb, hlen, hctr, m, hm, f1, f5⟩

/-- C15: for a 16-byte nonce/counter block, a call that fails because
`len(out) < len(in)` leaves the output buffer and the nonce/counter buffer as
they were; a call that fails because of counter overflow
(`len(out) >= len(in)`, `ctr0 + N/64 >= 2^64`) leaves the nonce/counter buffer
with its initial 16 bytes, while the first `64 * (2^64 - ctr0)` bytes of the
output buffer, the full blocks for the counters `ctr0 .. 2^64 - 1`, hold the
encrypted input and the bytes after them are untouched. -/
theorem genericXORKeyStream_failure_state (out inp nonce key : List Nat)
    (hn : nonce.length = 16) (hb : IsBytes nonce) :
    (out.length < inp.length →
      genericXORKeyStream out inp nonce key = .panicked .outTooSmall ⟨out, nonce⟩) ∧
    (inp.length ≤ out.length → 2 ^ 64 ≤ counterValue nonce + inp.length / 64 →
      ∃ m, genericXORKeyStream out inp nonce key = .panicked .counterOverflow m ∧
        m.counter = nonce ∧ m.out.length = out.length ∧
        64 * (2 ^ 64 - counterValue nonce) ≤ inp.length ∧
        (∀ i, i < 64 * (2 ^ 64 - counterValue nonce) →
          counterValue nonce + i / 64 ≤ 2 ^ 64 - 1 ∧
          m.out.getD i 0 =
            inp.getD i 0 ^^^ (KS key nonce (counterValue nonce + i / 64)).getD (i % 64) 0) ∧
        (∀ i, 64 * (2 ^ 64 - counterValue nonce) ≤ i → m.out.getD i 0 = out.getD i 0)) := by
  refine ⟨fun h => by unfold genericXORKeyStream; rw [if_pos h], fun hlen hov => ?_⟩
  have hc := counterValue_lt nonce hn hb
  have hblocks : 64 * (2 ^ 64 - counterValue nonce) ≤ inp.length := by omega
  have hl : (inp.take (64 * (2 ^ 64 - counterValue nonce))).length =
      64 * (2 ^ 64 - counterValue nonce) := by
    rw [List.length_take]; omega
  have hE : (expected key nonce (counterValue nonce)
      (inp.take (64 * (2 ^ 64 - counterValue nonce)))).length =
      64 * (2 ^ 64 - counterValue nonce) := by
    rw [expected_length, hl]
  refine ⟨_, by rw [genericXORKeyStream_spec out inp nonce key hn hb hlen, if_neg (by omega)],
    rfl, ?_, hblocks, ?_, ?_⟩
  · simp only [List.length_append, hE, List.length_drop]; omega
  · intro i hi
    refine ⟨by omega, ?_⟩
    simp only []
    rw [List.getD_append _ _ _ _ (by rw [hE]; exact hi),
      getD_expected _ _ _ _ _ (by rw [hl]; exact hi)]
    congr 1
    simp only [List.getD_eq_getElem?_getD, List.getElem?_take, hi, if_true]
  · intro i hi
    simp only []
    rw [List.getD_append_right _ _ _ _ (by rw [hE]; exact hi), hE]
    simp only [List.getD_eq_getElem?_getD, List.getElem?_drop]
    rw [show 64 * (2 ^ 64 - counterValue nonce) + (i - 64 * (2 ^ 64 - counterValue nonce)) = i
      by omega]

/-- C15 at the counter `2^64 - 2` and a 200-byte input: two blocks are written
before the panic. -/
theorem genericXORKeyStream_failure_state_witness :
    ([0, 0, 0, 0, 0, 0, 0, 0, 254, 255, 255, 255, 255, 255, 255, 255] : List Nat).length = 16 ∧
    IsBytes [0, 0, 0, 0, 0, 0, 0, 0, 254, 255, 255, 255, 255, 255, 255, 255] ∧
    (List.replicate 200 0).length ≤ (List.replicate 200 9).length ∧
    2 ^ 64 ≤ counterValue [0, 0, 0, 0, 0, 0, 0, 0, 254, 255, 255, 255, 255, 255, 255, 255] +
      (List.replicate 200 0).length / 64 ∧
    ∃ m, genericXORKeyStream (List.replicate 200 9) (List.replicate 200 0)
        [0, 0, 0, 0, 0, 0, 0, 0, 254, 255, 255, 255, 255, 255, 255, 255]
        (List.replicate 32 0) = .panicked .counterOverflow m ∧
      m.counter = [0, 0, 0, 0, 0, 0, 0, 0, 254, 255, 255, 255, 255, 255, 255, 255] ∧
      m.out.getD 128 0 = 9 := by
  have hn : ([0, 0, 0, 0, 0, 0, 0, 0, 254, 255, 255, 255, 255, 255, 255, 255] :
      List Nat).length = 16 := by decide
  have hb : IsBytes [0, 0, 0, 0, 0, 0, 0, 0, 254, 255, 255, 255, 255, 255, 255, 255] := by decide
  have hlen : (List.replicate 200 0).length ≤ (List.replicate 200 9).length := by decide
  have hov : 2 ^ 64 ≤
      counterValue [0, 0, 0, 0, 0, 0, 0, 0, 254, 255, 255, 255, 255, 255, 255, 255] +
        (List.replicate 200 0).length / 64 := by decide
  obtain ⟨m, e1, e2, _, _, _, e6⟩ := (genericXORKeyStream_failure_state (List.replicate 200 9)
    (List.replicate 200 0) [0, 0, 0, 0, 0, 0, 0, 0, 254, 255, 255, 255, 255, 255, 255, 255]
    (List.replicate 32 0) hn hb).2 hlen hov
  exact ⟨hn, hb, hlen, hov, m, e1, e2, by rw [e6 128 (by decide)]; decide⟩

/-- C16: `quarterRoundInv`, which undoes the four xor steps in reverse order, is a
two-sided inverse of `quarterRound`, and both map 32-bit words to 32-bit words,
so `quarterRound` is a bijection on 4-tuples of 32-bit words.  Consequently the
twenty rounds `keyStreamBlock` applies to its input words before the add-back
(`permute`) have the two-sided inverse `permuteInv` and keep every word a 32-bit
word: they are a permutation of the 16-word states. -/
theorem quarterRound_bijection (a b c d : Nat) (x : Words16) (nonce key : List Nat)
    (ha : a < 2 ^ 32) (hb : b < 2 ^ 32) (hc : c < 2 ^ 32) (hd : d < 2 ^ 32)
    (hx : x.IsWords) :
    quarterRoundInv (quarterRound a b c d).1 (quarterRound a b c d).2.1
      (quarterRound a b c d).2.2.1 (quarterRound a b c d).2.2.2 = (a, b, c, d) ∧
    quarterRound (quarterRoundInv a b c d).1 (quarterRoundInv a b c d).2.1
      (quarterRoundInv a b c d).2.2.1 (quarterRoundInv a b c d).2.2.2 = (a, b, c, d) ∧
    ((quarterRound a b c d).1 < 2 ^ 32 ∧ (quarterRound a b c d).2.1 < 2 ^ 32 ∧
      (quarterRound a b c d).2.2.1 < 2 ^ 32 ∧ (quarterRound a b c d).2.2.2 < 2 ^ 32) ∧
    ((quarterRoundInv a b c d).1 < 2 ^ 32 ∧ (quarterRoundInv a b c d).2.1 < 2 ^ 32 ∧
      (quarterRoundInv a b c d).2.2.1 < 2 ^ 32 ∧ (quarterRoundInv a b c d).2.2.2 < 2 ^ 32) ∧
    permuteInv (permute x) = x ∧ permute (permuteInv x) = x ∧
    (permute x).IsWords ∧ (permuteInv x).IsWords ∧
    keyStreamBlock nonce key =
      outputBytes (permute (initWords nonce key)) (initWords nonce key) :=
  ⟨quarterRoundInv_of_eq rfl, quarterRound_of_eq rfl, quarterRound_lt a b c d ha hb hc hd,
    quarterRoundInv_lt a b c d ha hb hc hd, permuteInv_permute x, permute_permuteInv x,
    permute_isWords x hx, permuteInv_isWords x hx, keyStreamBlock_eq_output nonce key⟩

/-- C16 at the words `1, 2, 3, 4` and the state `0, 1, .., 15`. -/
theorem quarterRound_bijection_witness :
    (1 < 2 ^ 32 ∧ 2 < 2 ^ 32 ∧ 3 < 2 ^ 32 ∧ 4 < 2 ^ 32) ∧
    Words16.IsWords ⟨0, 1, 2, 3, 4, 5, 6, 7, 8, 9, 10, 11, 12, 13, 14, 15⟩ ∧
    quarterRoundInv (quarterRound 1 2 3 4).1 (quarterRound 1 2 3 4).2.1
      (quarterRound 1 2 3 4).2.2.1 (quarterRound 1 2 3 4).2.2.2 = (1, 2, 3, 4) ∧
    permuteInv (permute ⟨0, 1, 2, 3, 4, 5, 6, 7, 8, 9, 10, 11, 12, 13, 14, 15⟩) =
      ⟨0, 1, 2, 3, 4, 5, 6, 7, 8, 9, 10, 11, 12, 13, 14, 15⟩ := by
  have h := quarterRound_bijection 1 2 3 4 ⟨0, 1, 2, 3, 4, 5, 6, 7, 8, 9, 10, 11, 12, 13, 14, 15⟩
    (List.replicate 16 0) (List.replicate 32 0) (by decide) (by decide) (by decide) (by decide)
    (by decide)
  exact ⟨by decide, by decide, h.1, h.2.2.2.2.1⟩

end Salsa
